import Mathlib

/-!
Verification development for the bencher benchmark-result store.

The embedding follows the versioned-record persistence model of
`src/db.rs` (and its older twin in `src/lib.rs`): each physical store
holds append-only result rows keyed by `(experiment_code, key)` where the
key is the group string for linear results and the tag integer for XY
results.  Version signs encode activity (positive = active, negative =
reverted).  The SQL statements of the source are embedded as list
transformations; `f64` values are carried as uninterpreted payloads.
-/

set_option maxRecDepth 100000

namespace Bencher

/-- Uninterpreted carrier for the `f64` column payloads; the embedded code
never computes with floats, it only moves them around. -/
structure F64 where
  bits : Nat
deriving DecidableEq, Repr

/-- `Value` from `value_model.rs`: tagged union of a 64-bit integer and a
float (the float branch is uninterpreted). -/
inductive Value where
  | int (i : Int)
  | float (f : F64)
deriving DecidableEq, Repr

/-- One row of a results table (`linear_results` / `xy_results`).  `κ` is
the per-code key column (`v_group : String` for linear rows, `tag : Int`
for XY rows); `α` is the opaque payload made of the value/confidence
columns, which the versioning SQL never inspects. -/
structure SRow (κ : Type) (α : Type) where
  code : String
  key : κ
  version : Int
  value : α
deriving DecidableEq, Repr

variable {κ α : Type} [DecidableEq κ] [DecidableEq α]

/-- Rows of one key: `where experiment_code = :code and v_group = :v_group`
(resp. `and tag = :tag`). -/
def rowsFor (s : List (SRow κ α)) (c : String) (k : κ) : List (SRow κ α) :=
  s.filter (fun r => r.code = c ∧ r.key = k)

/-- `max(abs(version))` over a row list, with the SQL `NULL` (empty) case
mapped to `0`. -/
def maxAbsNat : List (SRow κ α) → Nat
  | [] => 0
  | r :: rs => max r.version.natAbs (maxAbsNat rs)

/-- `get_new_linear_version` / `get_new_xy_version` (db.rs:157, db.rs:279):
`select max(abs(version)) + 1` with `unwrap_or(1)` on the empty (NULL)
case, which coincides with `maxAbsNat + 1`. -/
def getNewVersion (s : List (SRow κ α)) (c : String) (k : κ) : Int :=
  (maxAbsNat (rowsFor s c k) : Int) + 1

/-- `add_linear_datapoint` / `add_xy_datapoint` (db.rs:167, db.rs:297):
allocate the new version for the datapoint's key and insert the row. -/
def addDatapoint (s : List (SRow κ α)) (c : String) (k : κ) (v : α) :
    List (SRow κ α) :=
  s ++ [⟨c, k, getNewVersion s c k, v⟩]

/-- Row achieving `max(version)`; on ties the earlier row is kept (the
reachable states proved below never tie). -/
def maxRow : List (SRow κ α) → Option (SRow κ α)
  | [] => none
  | r :: rs =>
    match maxRow rs with
    | none => some r
    | some m => if r.version < m.version then some m else some r

/-- `select max(version) ...` over a key's rows (NULL on an empty key). -/
def maxVersion (s : List (SRow κ α)) (c : String) (k : κ) : Option Int :=
  (maxRow (rowsFor s c k)).map (fun r => r.version)

/-- `revert_*_datapoint` with `version = None` (db.rs:271-274): negate the
rows holding `max(version)` for the key. -/
def revertNone (s : List (SRow κ α)) (c : String) (k : κ) : List (SRow κ α) :=
  s.map (fun r =>
    if r.code = c ∧ r.key = k ∧ some r.version = maxVersion s c k then
      { r with version := -r.version }
    else r)

/-- First statement of `revert_*_datapoint` with `version = Some v`
(db.rs:267): `set version = abs(version) where ... abs(version) = v`. -/
def revertToStep1 (s : List (SRow κ α)) (c : String) (k : κ) (v : Nat) :
    List (SRow κ α) :=
  s.map (fun r =>
    if r.code = c ∧ r.key = k ∧ r.version.natAbs = v then
      { r with version := (r.version.natAbs : Int) }
    else r)

/-- Second statement of `revert_*_datapoint` with `version = Some v`
(db.rs:269): `set version = -version where ... version > v`. -/
def revertToStep2 (s : List (SRow κ α)) (c : String) (k : κ) (v : Nat) :
    List (SRow κ α) :=
  s.map (fun r =>
    if r.code = c ∧ r.key = k ∧ (v : Int) < r.version then
      { r with version := -r.version }
    else r)

/-- `revert_*_datapoint` with an explicit target version (db.rs:266-270). -/
def revertTo (s : List (SRow κ α)) (c : String) (k : κ) (v : Nat) :
    List (SRow κ α) :=
  revertToStep2 (revertToStep1 s c k v) c k v

/-- Distinct key values appearing under a code, in first-occurrence order
(the `group by` key set). -/
def groupKeys (s : List (SRow κ α)) (c : String) : List κ :=
  ((s.filter (fun r => r.code = c)).map (fun r => r.key)).dedup

/-- The per-key selected rows of the `current` query: for each key of the
code, the row carrying `max(version)` (SQLite bare-column semantics of
`select ..., max(version) ... group by key`). -/
def currentRows (s : List (SRow κ α)) (c : String) : List (SRow κ α) :=
  (groupKeys s c).filterMap (fun g => maxRow (rowsFor s c g))

/-- The query loop of the read paths, `for datapoint in stmt.query_map(...)
{ vec.push(datapoint?) }`: decode every selected row in order, a decoder
failure aborting the whole read. -/
def decodeAll {γ : Type} (dec : SRow κ α → Option γ) :
    List (SRow κ α) → Option (List γ)
  | [] => some []
  | r :: rs =>
    match dec r, decodeAll dec rs with
    | some d, some ds => some (d :: ds)
    | _, _ => none

/-- `version` (lib.rs:915): `select abs(max(version))` for the key; a key
with no rows yields SQL NULL, surfaced as an error (`none`). -/
def keyVersion (s : List (SRow κ α)) (c : String) (k : κ) : Option Nat :=
  (maxVersion s c k).map Int.natAbs

/-- `versions` (lib.rs:923): `select abs(version)` of every row of the key
in storage order. -/
def keyVersions (s : List (SRow κ α)) (c : String) (k : κ) : List Nat :=
  (rowsFor s c k).map (fun r => r.version.natAbs)

/-- Linear rows key on the `v_group` string column. -/
abbrev LinearRow (α : Type) := SRow String α

/-- XY rows key on the `tag` integer column. -/
abbrev XYRow (α : Type) := SRow Int α

def get_new_linear_version (s : List (LinearRow α)) (c : String) (g : String) : Int :=
  getNewVersion s c g

/-- `revert_linear_datapoint` (db.rs:260-277). -/
def revert_linear_datapoint (s : List (LinearRow α)) (c : String) (g : String) :
    Option Nat → List (LinearRow α)
  | some v => revertTo s c g v
  | none => revertNone s c g

def get_new_xy_version (s : List (XYRow α)) (c : String) (t : Int) : Int :=
  getNewVersion s c t

/-- `max(tag)` over a code's XY rows (NULL on an empty code). -/
def maxTagVal : List (XYRow α) → Option Int
  | [] => none
  | r :: rs =>
    match maxTagVal rs with
    | none => some r.key
    | some m => some (max r.key m)

/-- `get_new_xy_tag` (db.rs:287): `select max(tag) + 1` with `unwrap_or(0)`
on the empty (NULL) case. -/
def get_new_xy_tag (s : List (XYRow α)) (c : String) : Int :=
  match maxTagVal (s.filter (fun r => r.code = c)) with
  | none => 0
  | some m => m + 1

def add_xy_datapoint (s : List (XYRow α)) (c : String) (t : Int) (v : α) :
    List (XYRow α) :=
  addDatapoint s c t v

/-- `XYLineHandle::add_datapoint` via `tag_datapoint` (handles.rs): an
untagged datapoint is first assigned the next unused tag, then inserted
with the version allocated for that tag. -/
def xy_handle_add_datapoint (s : List (XYRow α)) (c : String)
    (t? : Option Int) (v : α) : List (XYRow α) :=
  add_xy_datapoint s c (t?.getD (get_new_xy_tag s c)) v

/-- `XYLineHandle::add_datapoint` via `tag_datapoint` of the older
`lib.rs` (lib.rs:1440-1458, lib.rs:1464): a tagged datapoint is inserted
at the allocated version, but an untagged one is inserted with the
version literal `0` that `tag_datapoint` returns in its no-tag branch. -/
def xy_handle_add_datapoint_old (s : List (XYRow α)) (c : String)
    (t? : Option Int) (v : α) : List (XYRow α) :=
  match t? with
  | some t => s ++ [⟨c, t, getNewVersion s c t, v⟩]
  | none => s ++ [⟨c, get_new_xy_tag s c, 0, v⟩]

/-- `revert_xy_datapoint` (db.rs:456-473). -/
def revert_xy_datapoint (s : List (XYRow α)) (c : String) (t : Int) :
    Option Nat → List (XYRow α)
  | some v => revertTo s c t v
  | none => revertNone s c t

/-- Claim-side description of `revert(c,k,Some v)`: the row whose absolute
version is `v` is reactivated to `+v`; rows newer than `v` are negated;
all other rows of the key are untouched. -/
def revertToRowSpec (c : String) (k : κ) (v : Nat) (r : SRow κ α) :
    SRow κ α :=
  if r.code = c ∧ r.key = k then
    if r.version.natAbs = v then { r with version := (v : Int) }
    else if (v : Int) < r.version then { r with version := -r.version }
    else r
  else r

/-- `add` the given values to one key, in order. -/
def addMany (s : List (SRow κ α)) (c : String) (k : κ) (vs : List α) :
    List (SRow κ α) :=
  vs.foldl (fun s' v => addDatapoint s' c k v) s

/-- Iterate `revert(c,k,None)`. -/
def revertNoneIter (c : String) (k : κ) (s : List (SRow κ α)) :
    Nat → List (SRow κ α)
  | 0 => s
  | j + 1 => revertNone (revertNoneIter c k s j) c k

/-- Rows of one key with consecutive positive versions `start+1, start+2, …`
(the shape a fresh key has after a burst of `add`s). -/
def seqRows (c : String) (k : κ) (start : Nat) : List α → List (SRow κ α)
  | [] => []
  | v :: vs => ⟨c, k, (start : Int) + 1, v⟩ :: seqRows c k (start + 1) vs

/-- Signed version of the row at (0-based) position `start` when every
version above `cut` has been negated. -/
def revVersion (cut start : Nat) : Int :=
  if start + 1 ≤ cut then (start : Int) + 1 else -((start : Int) + 1)

/-- Rows of one key with versions `start+1, …` where versions above `cut`
have been negated (the shape after reverting the newest writes). -/
def revRows (c : String) (k : κ) (cut : Nat) (start : Nat) :
    List α → List (SRow κ α)
  | [] => []
  | v :: vs => ⟨c, k, revVersion cut start, v⟩ :: revRows c k cut (start + 1) vs

/-- One write-path operation of a store (`add`, `revert` with or without a
target version). -/
inductive StoreOp (κ α : Type) where
  | add (c : String) (k : κ) (v : α)
  | revert (c : String) (k : κ) (v? : Option Nat)

/-- Apply one operation to a store state. -/
def applyOp (s : List (SRow κ α)) : StoreOp κ α → List (SRow κ α)
  | .add c k v => addDatapoint s c k v
  | .revert c k (some v) => revertTo s c k v
  | .revert c k none => revertNone s c k

/-- Run a sequence of operations from the empty store. -/
def runOps (ops : List (StoreOp κ α)) : List (SRow κ α) :=
  ops.foldl applyOp []

/-- `HashMap::insert` of `code -> idx` (db.rs:498) as a function update. -/
def insertCode (m : String → Option Nat) (idx : Nat) (code : String) :
    String → Option Nat :=
  fun c => if c = code then some idx else m c

/-- The `code -> store index` map built by the first loop of
`build_code_map` (db.rs:492-503): every store's codes are inserted, later
stores overriding earlier ones. -/
def invertedMapFrom (idx : Nat) (sets : List (List String))
    (m : String → Option Nat) : String → Option Nat :=
  match sets with
  | [] => m
  | cs :: rest =>
    invertedMapFrom (idx + 1) rest
      (cs.foldl (fun m' code => insertCode m' idx code) m)

def invertedMap (dbs : List (List String)) : String → Option Nat :=
  invertedMapFrom 0 dbs (fun _ => none)

/-- The disjointness sweep of `build_code_map` (db.rs:514-526): fold the
code sets left to right, failing at the first set that intersects the
union of the earlier ones, reporting that store and the intersection. -/
def buildCodeMapGo (idx : Nat) (allCodes : List String) :
    List (List String) → Except (Nat × List String) Unit
  | [] => .ok ()
  | cs :: rest =>
    if ∀ c ∈ cs, c ∉ allCodes then
      buildCodeMapGo (idx + 1) (allCodes ++ cs) rest
    else
      .error (idx, allCodes.filter (fun a => a ∈ cs))

/-- `DbReadBackend::build_code_map` (db.rs:487-529). -/
def build_code_map (dbs : List (List String)) :
    Except (Nat × List String) (String → Option Nat) :=
  match buildCodeMapGo 0 [] dbs with
  | .error e => .error e
  | .ok _ => .ok (invertedMap dbs)

/-- Claim-side property: the code sets of the stores are pairwise
disjoint. -/
def PairwiseDisjointCodes (dbs : List (List String)) : Prop :=
  ∀ j < dbs.length, ∀ i < j, ∀ c ∈ dbs.getD i [], c ∉ dbs.getD j []

instance (dbs : List (List String)) : Decidable (PairwiseDisjointCodes dbs) := by
  unfold PairwiseDisjointCodes
  infer_instance

/-- Fuel-driven binary logarithm (`natLog2Go n n` computes `⌊log2 n⌋` for
`n ≥ 1`, structurally, so it evaluates inside the kernel). -/
def natLog2Go : Nat → Nat → Nat
  | 0, _ => 0
  | fuel + 1, n => if n ≤ 1 then 0 else natLog2Go fuel (n / 2) + 1

def natLog2 (n : Nat) : Nat := natLog2Go n n

/-- Is `2^e ≤ num/den` (for `den ≥ 1`)? -/
def pow2LeRat (num den : Nat) (e : Int) : Bool :=
  if 0 ≤ e then den * 2 ^ e.toNat ≤ num else den ≤ num * 2 ^ (-e).toNat

/-- Exponent of the leading binary digit of the positive rational
`num/den`: the unique `e` with `2^e ≤ num/den < 2^(e+1)`.  The candidate
`e0` computed from the integer logarithms always lies in `{e, e+1}`
(`num/den` is strictly between `2^(e0-1)` and `2^(e0+1)`), so a single
downward fixup suffices. -/
def ratFloorLog2 (num den : Nat) : Int :=
  let e0 : Int := (natLog2 num : Int) - (natLog2 den : Int)
  if pow2LeRat num den e0 then e0 else e0 - 1

/-- Round `num/den` (`den ≥ 1`) to an integer, nearest, ties to even. -/
def ratRoundHalfEven (num den : Nat) : Nat :=
  let q := num / den
  let r := num % den
  if 2 * r < den then q
  else if den < 2 * r then q + 1
  else if q % 2 = 0 then q else q + 1

/-- `(num/den) * 2^k` as a fraction of naturals. -/
def scalePow2 (num den : Nat) (k : Int) : Nat × Nat :=
  if 0 ≤ k then (num * 2 ^ k.toNat, den) else (num, den * 2 ^ (-k).toNat)

/-- IEEE-754 binary64 rounding (round to nearest, ties to even) of the
non-negative rational `num/den`, as a dyadic pair `(m, e)` of value
`m * 2^e` with mantissa `m ∈ [2^52, 2^53]` (or `(0, 0)` for zero): scale
into `[2^52, 2^53)` and round the 53-bit mantissa half-to-even.  This is
exact binary64 arithmetic on the normal finite range, which contains
every nonzero value the percentile index computation can produce (its
inputs are at least `1/100` in magnitude and far below the overflow
threshold). -/
def roundF64N (num den : Nat) : Nat × Int :=
  if num = 0 then (0, 0)
  else
    let e := ratFloorLog2 num den
    let nd := scalePow2 num den (52 - e)
    (ratRoundHalfEven nd.1 nd.2, e - 52)

/-- The dyadic value `m * 2^e` as a fraction of naturals. -/
def dyadicFrac (m : Nat) (e : Int) : Nat × Nat :=
  if 0 ≤ e then (m * 2 ^ e.toNat, 1) else (m, 2 ^ (-e).toNat)

/-- `⌈m * 2^e⌉` for a non-negative dyadic. -/
def dyadicCeil (m : Nat) (e : Int) : Nat :=
  if 0 ≤ e then m * 2 ^ e.toNat
  else (m + 2 ^ (-e).toNat - 1) / 2 ^ (-e).toNat

/-- The index computed by stat.rs:17/41:
`(sorted_sample.len() as f64 * (percentile as f64 / 100.0)).ceil() as usize`.
Each conversion and arithmetic operation is correctly rounded to binary64
(`as f64` on `percentile` and `len`, the division of the double
`percentile as f64` by the exact constant `100.0` — its exact quotient is
`pf.1 / (pf.2 * 100)` — and the product of the doubles, whose exact value
is the dyadic `(l64.1 * q64.1, l64.2 + q64.2)`); `.ceil()` of a finite
double is exact (its result is always representable), and the final
`as usize` cast truncates the non-negative integral double, so the index
is the exact ceiling of the rounded product. -/
def f64Index (len percentile : Nat) : Nat :=
  let p64 := roundF64N percentile 1
  let pf := dyadicFrac p64.1 p64.2
  let q64 := roundF64N pf.1 (pf.2 * 100)
  let l64 := roundF64N len 1
  let prodf := dyadicFrac (l64.1 * q64.1) (l64.2 + q64.2)
  let r64 := roundF64N prodf.1 prodf.2
  dyadicCeil r64.1 r64.2

/-- `integer_percentile` (stat.rs:16-23): select the element at the
`f64`-computed ceiling index (`f64Index`), or the last element when that
index falls outside the sample. -/
def integer_percentile (sorted_sample : List Int) (percentile : Nat) : Int :=
  let n := f64Index sorted_sample.length percentile
  if n < sorted_sample.length then sorted_sample.getD n 0
  else sorted_sample.getD (sorted_sample.length - 1) 0

/-- `float_percentile` (stat.rs:40-47): identical index selection over
float samples (elements are carried uninterpreted). -/
def float_percentile (sorted_sample : List F64) (percentile : Nat) : F64 :=
  let n := f64Index sorted_sample.length percentile
  if n < sorted_sample.length then sorted_sample.getD n ⟨0⟩
  else sorted_sample.getD (sorted_sample.length - 1) ⟨0⟩

/-- Sorted, deduplicated code list: the iteration order of the `status`
BTreeMap keyed by `exp_code` (db.rs:638-660). -/
def sortedCodes (expCodes : List String) : List String :=
  List.insertionSort (fun a b : String => a ≤ b) expCodes.dedup

/-- One `status` output entry (`ExperimentStatus` with the display-only
fields dropped). -/
structure ExpStatus where
  exp_code : String
  n_datapoints : Nat
  n_active_datapoints : Nat
deriving DecidableEq, Repr

/-- `map.get_mut(&code).map(|s| s.n_datapoints = n)` (db.rs:671). -/
def setCount (l : List ExpStatus) (c : String) (n : Nat) : List ExpStatus :=
  l.map (fun e => if e.exp_code = c then { e with n_datapoints := n } else e)

/-- `map.get_mut(&code).map(|s| s.n_active_datapoints += 1)` (db.rs:678). -/
def bumpActive (l : List ExpStatus) (c : String) : List ExpStatus :=
  l.map (fun e => if e.exp_code = c then
    { e with n_active_datapoints := e.n_active_datapoints + 1 } else e)

/-- The code column read from a bare-aggregate row: one of the table's
codes (SQLite leaves the choice open; the inputs proved about below hold a
single code), or the NULL read back as `""` on an empty table. -/
def bareCode (xy : List (SRow Int Unit)) : String :=
  match xy with
  | [] => ""
  | r :: _ => r.code

/-- The result rows of the datapoint-count query of `status` (db.rs:663):
`select experiment_code, count(*) from xy_results union select
experiment_code, count(*) from linear_results group by experiment_code`.
The `group by` attaches to the second select only, so the first arm is a
bare aggregate yielding a single row whose code column is taken from one
of the xy rows (NULL, read back as "", when the table is empty) and whose
count is the total number of xy rows; the second arm yields one row per
linear code; `union` removes duplicate pairs. -/
def statusCountRows (xy : List (SRow Int Unit))
    (lin : List (SRow String Unit)) : List (String × Nat) :=
  ([(bareCode xy, xy.length)] ++
    ((lin.map (fun r => r.code)).dedup).map
      (fun c => (c, (lin.filter (fun r => r.code = c)).length))).dedup

/-- The row of the xy active-count query of `status` (db.rs:675):
`select experiment_code, tag, max(version) from xy_results` — with no
`group by` this is a single bare-aggregate row whose code column comes
from the row achieving the maximal version (no row for an empty table,
whose NULL code matches no map entry). -/
def statusXyActiveCodes (xy : List (SRow Int Unit)) : List String :=
  match maxRow xy with
  | none => []
  | some m => [m.code]

/-- The rows of the linear active-count query of `status` (db.rs:682):
`select experiment_code, v_group, max(version) from linear_results group
by experiment_code, v_group` — one row per (code, group). -/
def statusLinActiveCodes (lin : List (SRow String Unit)) : List String :=
  ((lin.map (fun r => (r.code, r.key))).dedup).map (fun p => p.1)

/-- `DbReadBackend::status` (db.rs:637-695) for a single store: build the
zeroed entries per experiment code, overwrite `n_datapoints` from the
count query, then bump `n_active_datapoints` once per row of the two
active-count queries; the BTreeMap iteration plus the final stable sorts
leave the entries ordered by code. -/
def status (expCodes : List String) (xy : List (SRow Int Unit))
    (lin : List (SRow String Unit)) : List ExpStatus :=
  let base := (sortedCodes expCodes).map (fun c => ExpStatus.mk c 0 0)
  let counted := (statusCountRows xy lin).foldl
    (fun l p => setCount l p.1 p.2) base
  let xyActive := (statusXyActiveCodes xy).foldl bumpActive counted
  (statusLinActiveCodes lin).foldl bumpActive xyActive

/-- Whether a key currently resolves to an active (positive maximal)
version. -/
def keyActive (rows : List (SRow κ α)) (c : String) (k : κ) : Bool :=
  match maxRow (rowsFor rows c k) with
  | none => false
  | some m => decide (0 < m.version)

/-- Claim-side description of `status`: per code, `n_datapoints` counts
every historical row of the code and `n_active_datapoints` counts the
keys of the code whose maximal version is positive, ordered by code. -/
def statusSpec (expCodes : List String) (xy : List (SRow Int Unit))
    (lin : List (SRow String Unit)) : List ExpStatus :=
  (sortedCodes expCodes).map (fun c =>
    ExpStatus.mk c
      ((xy.filter (fun r => r.code = c)).length +
        (lin.filter (fun r => r.code = c)).length)
      ((((xy.filter (fun r => r.code = c)).map (fun r => r.key)).dedup.filter
          (fun t => keyActive xy c t)).length +
        (((lin.filter (fun r => r.code = c)).map (fun r => r.key)).dedup.filter
          (fun g => keyActive lin c g)).length))

/-- Expressions of the virtual-experiment engine over the linear
evaluation context (variables `v`, `tag`, `min`, `max`, `avg`). -/
inductive VExpr where
  | vVar
  | tagVar
  | minVar
  | maxVar
  | avgVar
  | lit (i : Int)
  | sub (a b : VExpr)
deriving DecidableEq, Repr

/-- The variable bindings `map_expression` exposes to an expression
(value_model.rs:374-391). -/
structure EvalCtx where
  v : Int
  tag : Int
  gmin : Int
  gmax : Int
  gavg : Int
deriving DecidableEq, Repr

/-- Modelled from the spec: the expression evaluator is the external
`evalexpr` crate, which spec §9 says to represent as an injected pure
function `(expression, variable-bindings) -> Value`; this is that
evaluator on the integer-valued fragment used by the claims ("v - min" is
`.sub .vVar .minVar`). -/
def evalExpr (ctx : EvalCtx) : VExpr → Int
  | .vVar => ctx.v
  | .tagVar => ctx.tag
  | .minVar => ctx.gmin
  | .maxVar => ctx.gmax
  | .avgVar => ctx.gavg
  | .lit i => i
  | .sub a b => evalExpr ctx a - evalExpr ctx b

/-- Integer-valued linear datapoint as used by the virtual-experiment
pipeline. -/
structure LinearDatapointI where
  group : String
  v : Int
  v_confidence : List (Nat × Int × Int)
  tag : Option Int
deriving DecidableEq, Repr

/-- `LinearDatapoint::map_expression` (value_model.rs:393-455) on integer
datapoints: build the context from the central value, the (unwrapped) tag
and the global aggregates, evaluate the value expression on the central
value and on each confidence bound, and the tag expression on the tag;
absent expressions default to the identities `v` and `tag`. -/
def map_expression (dp : LinearDatapointI) (v_expr tag_expr : Option VExpr)
    (gmin gmax gavg : Int) : Option LinearDatapointI :=
  match dp.tag with
  | none => none
  | some t =>
    let ctx : EvalCtx := ⟨dp.v, t, gmin, gmax, gavg⟩
    some ⟨dp.group,
      evalExpr ctx (v_expr.getD .vVar),
      dp.v_confidence.map (fun p =>
        (p.1,
          evalExpr ⟨p.2.1, t, gmin, gmax, gavg⟩ (v_expr.getD .vVar),
          evalExpr ⟨p.2.2, t, gmin, gmax, gavg⟩ (v_expr.getD .vVar))),
      some (evalExpr ctx (tag_expr.getD .tagVar))⟩

/-- `map_linear_datapoints` inside `get_virtual_linear_experiment_sets`
(config.rs:325-366) on integer datapoints: an empty set passes through;
otherwise compute the global `min`/`max`/`avg` over the central values
(integer average with truncating division) and map every datapoint
through the expressions. -/
def map_linear_datapoints (vec : List LinearDatapointI)
    (v_op tag_op : Option VExpr) : Option (List LinearDatapointI) :=
  match vec with
  | [] => some []
  | v0 :: rest =>
    let vals := (v0 :: rest).map (fun d => d.v)
    let gmin := vals.foldl min v0.v
    let gmax := vals.foldl max v0.v
    let gavg := (vals.foldl (· + ·) 0).tdiv (vals.length : Int)
    (v0 :: rest).mapM (fun dp => map_expression dp v_op tag_op gmin gmax gavg)

/-- The virtual-set resolution over a concrete linear source
(config.rs:381-393): transform the source set's values, then sort them by
tag. -/
def get_virtual_linear_experiment_set (sourceValues : List LinearDatapointI)
    (v_op tag_op : Option VExpr) : Option (List LinearDatapointI) :=
  (map_linear_datapoints sourceValues v_op tag_op).map
    (fun values =>
      List.insertionSort (fun a b => a.tag.getD 0 ≤ b.tag.getD 0) values)

/-- The four columns of one stored confidence band (int pair and float
pair; exactly one pair is populated on disk). -/
structure ConfCols where
  lo_int : Option Int
  hi_int : Option Int
  lo_float : Option F64
  hi_float : Option F64
deriving DecidableEq, Repr

/-- The four canonical confidence bands (value_model.rs:34-39). -/
inductive Confidence where
  | one
  | five
  | ten
  | twentyfive
deriving DecidableEq, Repr

/-- `create_confidence_arg` (db.rs:828-841): prefer the populated integer
pair, fall back to the float pair. -/
def create_confidence_arg (cc : ConfCols) :
    Option (Sum (Int × Int) (F64 × F64)) :=
  match cc.lo_int, cc.hi_int with
  | some lo, some hi => some (Sum.inl (lo, hi))
  | _, _ =>
    match cc.lo_float, cc.hi_float with
    | some lo, some hi => some (Sum.inr (lo, hi))
    | _, _ => none

/-- The per-band confidence mapping of a datapoint (the `BTreeMap` keyed
by `Confidence`). -/
structure ConfMap where
  c1 : Option (Value × Value)
  c5 : Option (Value × Value)
  c10 : Option (Value × Value)
  c25 : Option (Value × Value)
deriving DecidableEq, Repr

def emptyConfMap : ConfMap := ⟨none, none, none, none⟩

/-- `BTreeMap::insert` keyed by band. -/
def insertConf (m : ConfMap) : Confidence → (Value × Value) → ConfMap
  | .one, p => { m with c1 := some p }
  | .five, p => { m with c5 := some p }
  | .ten, p => { m with c10 := some p }
  | .twentyfive, p => { m with c25 := some p }

/-- `add_confidence` (value_model.rs:343-364): bounds must carry the same
numeric tag as the central value; on a mismatch the error is raised (and
ignored by the decoders), leaving the mapping unchanged. -/
def addConfidence (central : Value) (m : ConfMap) (band : Confidence)
    (e : Sum (Int × Int) (F64 × F64)) : ConfMap :=
  match central, e with
  | .int _, .inl (lo, hi) => insertConf m band (.int lo, .int hi)
  | .float _, .inr (lo, hi) => insertConf m band (.float lo, .float hi)
  | _, _ => m

/-- One `if let Some(e) = create_confidence_arg(...) { let _ =
add_confidence(band, e); }` block of the row decoders. -/
def applyConfBlock (central : Value) (m : ConfMap) (band : Confidence)
    (cc : ConfCols) : ConfMap :=
  match create_confidence_arg cc with
  | none => m
  | some e => addConfidence central m band e

/-- `Value::new` (value_model.rs:127-133): integer column wins, then
float, else the empty-value error. -/
def valueFromCols (i : Option Int) (f : Option F64) : Option Value :=
  match i, f with
  | some n, _ => some (.int n)
  | _, some x => some (.float x)
  | _, _ => none

/-- Row decoder for linear datapoints (`TryFrom<&Row> for LinearDatapoint`,
db.rs:843-893, identically `linear_datapoint_from_row`, lib.rs:422-484):
decode the central value, then the four confidence blocks in order — the
fourth (25/75 columns) block is inserted under band 10 (db.rs:888,
lib.rs:480). -/
def linear_datapoint_from_row (group : String) (vi : Option Int)
    (vf : Option F64) (b1 b5 b10 b25 : ConfCols) :
    Option (String × Value × ConfMap) :=
  (valueFromCols vi vf).map (fun v =>
    (group, v,
      applyConfBlock v
        (applyConfBlock v
          (applyConfBlock v
            (applyConfBlock v emptyConfMap .one b1) .five b5) .ten b10)
        .ten b25))

/-- Row decoder for XY datapoints (`TryFrom<&Row> for XYDatapoint`,
db.rs:895-989, identically `xy_datapoint_from_row`, lib.rs:965-1071): both
axes decode their four confidence blocks with the fourth (25/75 columns)
block inserted under band 10 (db.rs:940, db.rs:980). -/
def xy_datapoint_from_row (xi : Option Int) (xf : Option F64)
    (yi : Option Int) (yf : Option F64)
    (xb1 xb5 xb10 xb25 yb1 yb5 yb10 yb25 : ConfCols) (tag : Option Int) :
    Option (Value × ConfMap × Value × ConfMap × Option Int) :=
  match valueFromCols xi xf, valueFromCols yi yf with
  | some x, some y =>
    some (x,
      applyConfBlock x
        (applyConfBlock x
          (applyConfBlock x
            (applyConfBlock x emptyConfMap .one xb1) .five xb5) .ten xb10)
        .ten xb25,
      y,
      applyConfBlock y
        (applyConfBlock y
          (applyConfBlock y
            (applyConfBlock y emptyConfMap .one yb1) .five yb5) .ten yb10)
        .ten yb25,
      tag)
  | _, _ => none

/-- `Value::to_int` (value_model.rs:149). -/
def Value.to_int : Value → Option Int
  | .int i => some i
  | .float _ => none

/-- `Value::to_float` (value_model.rs:156). -/
def Value.to_float : Value → Option F64
  | .float f => some f
  | .int _ => none

/-- `LinearDatapoint` (value_model.rs:222-230): group label, central
value, per-band confidence bounds, optional tag. -/
structure LinearDatapoint where
  group : String
  v : Value
  v_confidence : ConfMap
  tag : Option Int
deriving DecidableEq, Repr

/-- `XYDatapoint` (value_model.rs:569-579). -/
structure XYDatapoint where
  x : Value
  x_confidence : ConfMap
  y : Value
  y_confidence : ConfMap
  tag : Option Int
deriving DecidableEq, Repr

/-- The value/confidence columns of one `linear_results` row (everything
but the key and version columns). -/
structure LinearCols where
  v_int : Option Int
  v_float : Option F64
  b1 : ConfCols
  b5 : ConfCols
  b10 : ConfCols
  b25 : ConfCols
deriving DecidableEq, Repr

/-- The value/confidence columns of one `xy_results` row. -/
structure XYCols where
  x_int : Option Int
  x_float : Option F64
  y_int : Option Int
  y_float : Option F64
  xb1 : ConfCols
  xb5 : ConfCols
  xb10 : ConfCols
  xb25 : ConfCols
  yb1 : ConfCols
  yb5 : ConfCols
  yb10 : ConfCols
  yb25 : ConfCols
deriving DecidableEq, Repr

/-- The four stored columns of one band, as the insert statements write
them: `get_confidence(b).map(|val| val.0.to_int()).flatten()` and the
three siblings (db.rs:234-255). -/
def confColsFor (conf : Option (Value × Value)) : ConfCols :=
  ⟨conf.bind (fun p => p.1.to_int), conf.bind (fun p => p.2.to_int),
   conf.bind (fun p => p.1.to_float), conf.bind (fun p => p.2.to_float)⟩

/-- The column image of `add_linear_datapoint`'s insert parameters
(db.rs:225-256). -/
def linearColsOf (dp : LinearDatapoint) : LinearCols :=
  ⟨dp.v.to_int, dp.v.to_float,
   confColsFor dp.v_confidence.c1, confColsFor dp.v_confidence.c5,
   confColsFor dp.v_confidence.c10, confColsFor dp.v_confidence.c25⟩

/-- The column image of `add_xy_datapoint`'s insert parameters
(db.rs:392-420). -/
def xyColsOf (dp : XYDatapoint) : XYCols :=
  ⟨dp.x.to_int, dp.x.to_float, dp.y.to_int, dp.y.to_float,
   confColsFor dp.x_confidence.c1, confColsFor dp.x_confidence.c5,
   confColsFor dp.x_confidence.c10, confColsFor dp.x_confidence.c25,
   confColsFor dp.y_confidence.c1, confColsFor dp.y_confidence.c5,
   confColsFor dp.y_confidence.c10, confColsFor dp.y_confidence.c25⟩

/-- `add_linear_datapoint` (db.rs:167-258): allocate the version for the
datapoint's group and insert the encoded column row. -/
def add_linear_datapoint (s : List (LinearRow LinearCols)) (c : String)
    (dp : LinearDatapoint) : List (LinearRow LinearCols) :=
  addDatapoint s c dp.group (linearColsOf dp)

/-- The `TryFrom` decoder applied to one stored linear row, with the
column layout of the `get_linear_datapoints` select (db.rs:559-577). -/
def decodeLinearRow (r : LinearRow LinearCols) :
    Option (String × Value × ConfMap) :=
  linear_datapoint_from_row r.key r.value.v_int r.value.v_float
    r.value.b1 r.value.b5 r.value.b10 r.value.b25

/-- The `TryFrom` decoder applied to one stored XY row, with the column
layout of the `get_xy_datapoints` select (db.rs:594-622); the tag column
(index 36) is the row's key. -/
def decodeXYRow (r : XYRow XYCols) :
    Option (Value × ConfMap × Value × ConfMap × Option Int) :=
  xy_datapoint_from_row r.value.x_int r.value.x_float r.value.y_int
    r.value.y_float r.value.xb1 r.value.xb5 r.value.xb10 r.value.xb25
    r.value.yb1 r.value.yb5 r.value.yb10 r.value.yb25 (some r.key)

/-- `get_linear_datapoints` (db.rs:556-588): select the `max(version)` row
per group, decode each selected row through the `TryFrom` decoder (a
failure aborts the read), and sort the datapoints by group. -/
def get_linear_datapoints (s : List (LinearRow LinearCols)) (c : String) :
    Option (List (String × Value × ConfMap)) :=
  (decodeAll decodeLinearRow (currentRows s c)).map
    (fun ds => List.insertionSort (fun a b => a.1 ≤ b.1) ds)

/-- The `Option` ordering used by `sort_by_key(|d| d.tag)`: `None` sorts
before any `Some`, `Some`s compare by value. -/
def optTagLe (a b : Option Int) : Bool :=
  match a, b with
  | none, _ => true
  | some _, none => false
  | some x, some y => decide (x ≤ y)

/-- `get_xy_datapoints` (db.rs:590-635): select the `max(version)` row per
tag, decode each selected row through the `TryFrom` decoder, and sort the
datapoints by tag. -/
def get_xy_datapoints (s : List (XYRow XYCols)) (c : String) :
    Option (List (Value × ConfMap × Value × ConfMap × Option Int)) :=
  (decodeAll decodeXYRow (currentRows s c)).map
    (fun ds => List.insertionSort
      (fun a b => optTagLe a.2.2.2.2 b.2.2.2.2 = true) ds)

/-! ### Basic lemmas about the store embedding -/

theorem maxRow_eq_none {l : List (SRow κ α)} : maxRow l = none ↔ l = [] := by
  cases l with
  | nil => simp [maxRow]
  | cons r rs =>
    simp only [maxRow]
    cases hrs : maxRow rs with
    | none => simp
    | some m => by_cases hv : r.version < m.version <;> simp [hv]

theorem maxRow_mem {l : List (SRow κ α)} {m : SRow κ α}
    (h : maxRow l = some m) : m ∈ l := by
  induction l with
  | nil => simp [maxRow] at h
  | cons r rs ih =>
    simp only [maxRow] at h
    cases hrs : maxRow rs with
    | none => rw [hrs] at h; simp at h; simp [h]
    | some m' =>
      rw [hrs] at h
      by_cases hv : r.version < m'.version
      · simp [hv] at h; subst h; exact List.mem_cons_of_mem _ (ih hrs)
      · simp [hv] at h; simp [h]

theorem le_maxRow_version {l : List (SRow κ α)} {r m : SRow κ α}
    (hr : r ∈ l) (h : maxRow l = some m) : r.version ≤ m.version := by
  induction l generalizing m with
  | nil => simp at hr
  | cons x rs ih =>
    simp only [maxRow] at h
    cases hrs : maxRow rs with
    | none =>
      rw [hrs] at h
      simp only [Option.some.injEq] at h
      subst h
      rcases List.mem_cons.mp hr with h1 | h1
      · subst h1; exact le_refl _
      · rw [maxRow_eq_none.mp hrs] at h1; simp at h1
    | some m' =>
      rw [hrs] at h
      by_cases hv : x.version < m'.version
      · simp only [hv, if_true, Option.some.injEq] at h
        subst h
        rcases List.mem_cons.mp hr with h1 | h1
        · subst h1; exact le_of_lt hv
        · exact ih h1 hrs
      · simp only [hv, if_false, Option.some.injEq] at h
        subst h
        rcases List.mem_cons.mp hr with h1 | h1
        · subst h1; exact le_refl _
        · exact le_trans (ih h1 hrs) (not_lt.mp hv)

theorem maxRow_isSome {l : List (SRow κ α)} (h : l ≠ []) :
    (maxRow l).isSome := by
  cases hm : maxRow l with
  | none => exact absurd (maxRow_eq_none.mp hm) h
  | some m => rfl

theorem maxAbsNat_le {l : List (SRow κ α)} {r : SRow κ α} (hr : r ∈ l) :
    r.version.natAbs ≤ maxAbsNat l := by
  induction l with
  | nil => simp at hr
  | cons x rs ih =>
    rcases List.mem_cons.mp hr with h1 | h1
    · subst h1; simp [maxAbsNat]
    · exact le_trans (ih h1) (by simp [maxAbsNat])

theorem mem_rowsFor {s : List (SRow κ α)} {c : String} {k : κ}
    {r : SRow κ α} : r ∈ rowsFor s c k ↔ r ∈ s ∧ r.code = c ∧ r.key = k := by
  simp [rowsFor, List.mem_filter]

theorem rowsFor_append {s t : List (SRow κ α)} {c : String} {k : κ} :
    rowsFor (s ++ t) c k = rowsFor s c k ++ rowsFor t c k := by
  simp [rowsFor]

theorem maxRow_append_last {l : List (SRow κ α)} {x : SRow κ α}
    (h : ∀ r ∈ l, r.version < x.version) : maxRow (l ++ [x]) = some x := by
  induction l with
  | nil => simp [maxRow]
  | cons r rs ih =>
    have hih := ih (fun r' hr' => h r' (List.mem_cons_of_mem _ hr'))
    simp only [List.cons_append, maxRow, List.append_eq]
    rw [hih]
    simp [h r (List.mem_cons_self _ _)]

theorem mem_groupKeys {s : List (SRow κ α)} {c : String} {k : κ} :
    k ∈ groupKeys s c ↔ ∃ r ∈ s, r.code = c ∧ r.key = k := by
  simp [groupKeys, List.mem_dedup, List.mem_filter, List.mem_map, and_assoc]

theorem mem_currentRows_max {s : List (SRow κ α)} {c : String}
    {d : SRow κ α} (hd : d ∈ currentRows s c) :
    maxRow (rowsFor s c d.key) = some d := by
  rcases List.mem_filterMap.mp hd with ⟨g, _, hmax⟩
  have hmem := maxRow_mem hmax
  have hkey : d.key = g := (mem_rowsFor.mp hmem).2.2
  rw [hkey]
  exact hmax

theorem currentRows_exists {s : List (SRow κ α)} {c : String} {k : κ}
    (h : rowsFor s c k ≠ []) :
    ∃ d ∈ currentRows s c, maxRow (rowsFor s c k) = some d := by
  rcases List.exists_mem_of_ne_nil _ h with ⟨r, hr⟩
  rcases mem_rowsFor.mp hr with ⟨hrs, hrc, hrk⟩
  have hg : k ∈ groupKeys s c := mem_groupKeys.mpr ⟨r, hrs, hrc, hrk⟩
  cases hm : maxRow (rowsFor s c k) with
  | none => exact absurd (maxRow_eq_none.mp hm) h
  | some m =>
    exact ⟨m, List.mem_filterMap.mpr ⟨k, hg, hm⟩, rfl⟩

theorem mem_of_decodeAll {γ : Type} {dec : SRow κ α → Option γ}
    {l : List (SRow κ α)} {ys : List γ} (h : decodeAll dec l = some ys) :
    ∀ y ∈ ys, ∃ x ∈ l, dec x = some y := by
  induction l generalizing ys with
  | nil =>
    intro y hy
    simp only [decodeAll, Option.some.injEq] at h
    subst h
    simp at hy
  | cons r rs ih =>
    intro y hy
    simp only [decodeAll] at h
    cases hdr : dec r with
    | none => rw [hdr] at h; simp at h
    | some d =>
      rw [hdr] at h
      cases hrs : decodeAll dec rs with
      | none => rw [hrs] at h; simp at h
      | some ds =>
        rw [hrs] at h
        simp only [Option.some.injEq] at h
        subst h
        rcases List.mem_cons.mp hy with rfl | hy'
        · exact ⟨r, List.mem_cons_self _ _, hdr⟩
        · rcases ih hrs y hy' with ⟨x, hx, hdx⟩
          exact ⟨x, List.mem_cons_of_mem _ hx, hdx⟩

/-- Every datapoint a read path returns decodes one of the selected rows,
and the selected row carries the algebraically maximal version of its
key. -/
theorem decodeAll_current_sound {γ : Type} (dec : SRow κ α → Option γ)
    {s : List (SRow κ α)} {c : String} {ys : List γ}
    (h : decodeAll dec (currentRows s c) = some ys) :
    ∀ dp ∈ ys, ∃ m ∈ currentRows s c, dec m = some dp ∧
      maxRow (rowsFor s c m.key) = some m ∧
      ∀ r ∈ rowsFor s c m.key, r.version ≤ m.version := by
  intro dp hdp
  rcases mem_of_decodeAll h dp hdp with ⟨m, hm, hdm⟩
  exact ⟨m, hm, hdm, mem_currentRows_max hm,
    fun r hr => le_maxRow_version hr (mem_currentRows_max hm)⟩

/-- The freshly inserted row strictly dominates every prior row of its key,
so the `current` query selects it. -/
theorem maxRow_after_add (s : List (SRow κ α)) (c : String) (k : κ) (v : α) :
    maxRow (rowsFor (addDatapoint s c k v) c k) =
      some ⟨c, k, getNewVersion s c k, v⟩ := by
  have hnew : rowsFor (addDatapoint s c k v) c k =
      rowsFor s c k ++ [⟨c, k, getNewVersion s c k, v⟩] := by
    rw [addDatapoint, rowsFor_append]
    congr 1
    simp [rowsFor]
  rw [hnew]
  apply maxRow_append_last
  intro r hr
  have h1 : r.version ≤ (r.version.natAbs : Int) := Int.le_natAbs
  have h2 : r.version.natAbs ≤ maxAbsNat (rowsFor s c k) := maxAbsNat_le hr
  simp only [getNewVersion]
  omega

/-- C1: the add-then-read round trip does not return the newly written
datapoint when it carries a 25/75 confidence band.  The read paths decode
the selected row through the `TryFrom` decoder, whose fourth block passes
band 10 instead of 25 (db.rs:888, db.rs:940), so the stored 25/75 bounds
come back under the 10 band and the 25 band is empty: after `add` of a
datapoint with central value 50 and 25/75 band (25,75), `current` resolves
the key to an altered datapoint.  Evaluated on the linear path and (with
an x-axis 25/75 band) on the XY path. -/
theorem c1_add_current_returns_banded_datapoint_altered :
    get_linear_datapoints
      (add_linear_datapoint [] "c"
        ⟨"g", Value.int 50,
          ⟨none, none, none, some (Value.int 25, Value.int 75)⟩, none⟩) "c" =
      some [("g", Value.int 50,
        (⟨none, none, some (Value.int 25, Value.int 75), none⟩ : ConfMap))] ∧
    ((⟨none, none, some (Value.int 25, Value.int 75), none⟩ : ConfMap) ≠
      (⟨none, none, none, some (Value.int 25, Value.int 75)⟩ : ConfMap)) ∧
    get_xy_datapoints
      (add_xy_datapoint [] "c" 0
        (xyColsOf ⟨Value.int 1,
          ⟨none, none, none, some (Value.int 9, Value.int 11)⟩,
          Value.int 2, emptyConfMap, some 0⟩)) "c" =
      some [(Value.int 1,
        (⟨none, none, some (Value.int 9, Value.int 11), none⟩ : ConfMap),
        Value.int 2, emptyConfMap, some 0)] :=
  ⟨rfl, by decide, rfl⟩

theorem rowsFor_map {f : SRow κ α → SRow κ α}
    (hf : ∀ r, (f r).code = r.code ∧ (f r).key = r.key)
    (s : List (SRow κ α)) (c : String) (k : κ) :
    rowsFor (s.map f) c k = (rowsFor s c k).map f := by
  unfold rowsFor
  rw [List.filter_map]
  congr 1
  apply List.filter_congr
  intro r _
  simp [Function.comp, (hf r).1, (hf r).2]

theorem revertTo_eq_map_spec (s : List (SRow κ α)) (c : String) (k : κ)
    (v : Nat) : revertTo s c k v = s.map (revertToRowSpec c k v) := by
  unfold revertTo revertToStep2 revertToStep1
  rw [List.map_map]
  apply List.map_congr_left
  intro r _
  simp only [Function.comp_apply, revertToRowSpec]
  split_ifs <;> simp_all

theorem revertToRowSpec_preserves (c : String) (k : κ) (v : Nat) :
    ∀ r : SRow κ α, (revertToRowSpec c k v r).code = r.code ∧
      (revertToRowSpec c k v r).key = r.key := by
  intro r
  unfold revertToRowSpec
  by_cases hck : r.code = c ∧ r.key = k
  · by_cases habs : r.version.natAbs = v
    · simp [hck, habs]
    · by_cases hgt : (v : Int) < r.version <;> simp [hck, habs, hgt]
  · simp [hck]

theorem revertToRowSpec_version_le (c : String) (k : κ) (v : Nat)
    (hv : 0 < v) (r : SRow κ α) :
    (revertToRowSpec c k v r).version ≤ (v : Int) ∨
      ¬(r.code = c ∧ r.key = k) := by
  unfold revertToRowSpec
  by_cases hck : r.code = c ∧ r.key = k
  · left
    by_cases habs : r.version.natAbs = v
    · simp [hck, habs]
    · by_cases hgt : (v : Int) < r.version
      · simp only [hck, habs, hgt, and_self, if_true, if_false]
        omega
      · simp only [hck, habs, hgt, and_self, if_true, if_false]
        omega
  · right; exact hck

/-- C3: `revert(c,k,Some to_version)` reactivates the row whose absolute
version is `to_version`, negates every row of the key whose version
exceeds `to_version`, leaves rows of the key with lower version unchanged
(per-row description `revertToRowSpec`), and a subsequent `version(c,k)`
returns `to_version`. -/
theorem c3_revert_to_version (β : Type) [DecidableEq β]
    (s : List (LinearRow β)) (c g : String) (v : Nat) (hv : 0 < v)
    (hex : ∃ r ∈ rowsFor s c g, r.version.natAbs = v) :
    revert_linear_datapoint s c g (some v) = s.map (revertToRowSpec c g v) ∧
    keyVersion (revert_linear_datapoint s c g (some v)) c g = some v := by
  have hmap : revert_linear_datapoint s c g (some v) =
      s.map (revertToRowSpec c g v) := revertTo_eq_map_spec s c g v
  refine ⟨hmap, ?_⟩
  rw [hmap]
  have hrows : rowsFor (s.map (revertToRowSpec c g v)) c g =
      (rowsFor s c g).map (revertToRowSpec c g v) :=
    rowsFor_map (revertToRowSpec_preserves c g v) s c g
  rcases hex with ⟨r0, hr0, habs0⟩
  have hr0' : revertToRowSpec c g v r0 ∈
      (rowsFor s c g).map (revertToRowSpec c g v) := List.mem_map_of_mem _ hr0
  have hr0v : (revertToRowSpec c g v r0).version = (v : Int) := by
    rcases mem_rowsFor.mp hr0 with ⟨_, hc, hk⟩
    unfold revertToRowSpec
    simp [hc, hk, habs0]
  have hne : (rowsFor s c g).map (revertToRowSpec c g v) ≠ [] := by
    intro hempty
    rw [hempty] at hr0'
    simp at hr0'
  unfold keyVersion maxVersion
  rw [hrows]
  cases hm : maxRow ((rowsFor s c g).map (revertToRowSpec c g v)) with
  | none => exact absurd (maxRow_eq_none.mp hm) hne
  | some m =>
    have hmle : m.version ≤ (v : Int) := by
      have hmem := maxRow_mem hm
      rcases List.mem_map.mp hmem with ⟨r1, hr1, hr1e⟩
      rcases mem_rowsFor.mp hr1 with ⟨_, hc1, hk1⟩
      rcases revertToRowSpec_version_le c g v hv r1 with hle | hno
      · rw [← hr1e]; exact hle
      · exact absurd ⟨hc1, hk1⟩ hno
    have hvle : (v : Int) ≤ m.version := by
      have := le_maxRow_version hr0' hm
      rw [hr0v] at this
      exact this
    have hmv : m.version = (v : Int) := le_antisymm hmle hvle
    simp [hmv]

/-- C4: the version-allocation rule (`max(abs(version)) + 1`, or `1` for a
fresh key) is contradicted by the older XY add path: an untagged datapoint
is inserted at version `0` (the literal returned by `tag_datapoint`'s
no-tag branch in lib.rs:1457), while the allocation rule and the
`handles.rs`/`db.rs` path would give `1`. -/
theorem c4_untagged_xy_add_inserts_version_zero :
    xy_handle_add_datapoint_old ([] : List (XYRow Value)) "c" none
        (Value.int 7) = [⟨"c", 0, 0, Value.int 7⟩] ∧
    xy_handle_add_datapoint ([] : List (XYRow Value)) "c" none
        (Value.int 7) = [⟨"c", 0, 1, Value.int 7⟩] ∧
    get_new_xy_version ([] : List (XYRow Value)) "c" 0 = 1 ∧
    (0 : Int) ≠ 1 :=
  ⟨rfl, rfl, rfl, by decide⟩

/-! ### C2: add/revert round-trip -/

theorem seqRows_append (c : String) (k : κ) (n : Nat) (us vs : List α) :
    seqRows c k n (us ++ vs) =
      seqRows c k n us ++ seqRows c k (n + us.length) vs := by
  induction us generalizing n with
  | nil => simp [seqRows]
  | cons u us ih =>
    simp only [List.cons_append, seqRows, List.length_cons, List.append_eq]
    rw [ih (n + 1), show n + 1 + us.length = n + (us.length + 1) from by omega]

theorem mem_seqRows {c : String} {k : κ} {n : Nat} {vs : List α}
    {r : SRow κ α} (hr : r ∈ seqRows c k n vs) : r.code = c ∧ r.key = k := by
  induction vs generalizing n with
  | nil => simp [seqRows] at hr
  | cons v vs ih =>
    rcases List.mem_cons.mp hr with h | h
    · subst h; exact ⟨rfl, rfl⟩
    · exact ih h

theorem rowsFor_seqRows (c : String) (k : κ) (n : Nat) (vs : List α) :
    rowsFor (seqRows c k n vs) c k = seqRows c k n vs := by
  unfold rowsFor
  apply List.filter_eq_self.mpr
  intro r hr
  have := mem_seqRows hr
  simp [this.1, this.2]

theorem seqRows_length (c : String) (k : κ) (n : Nat) (vs : List α) :
    (seqRows c k n vs).length = vs.length := by
  induction vs generalizing n with
  | nil => rfl
  | cons v vs ih => simp [seqRows, ih]

theorem maxAbsNat_seqRows (c : String) (k : κ) (n : Nat) (vs : List α) :
    maxAbsNat (seqRows c k n vs) =
      if vs.length = 0 then 0 else n + vs.length := by
  induction vs generalizing n with
  | nil => rfl
  | cons v vs ih =>
    simp only [seqRows, maxAbsNat, ih (n + 1), List.length_cons]
    have habs : ((n : Int) + 1).natAbs = n + 1 := by omega
    rw [habs, if_neg (show ¬vs.length + 1 = 0 from by omega)]
    by_cases h : vs.length = 0
    · rw [if_pos h]; omega
    · rw [if_neg h]; omega

theorem addMany_seqRows (c : String) (k : κ) (us vs : List α) :
    addMany (seqRows c k 0 us) c k vs = seqRows c k 0 (us ++ vs) := by
  induction vs generalizing us with
  | nil => simp [addMany]
  | cons v vs ih =>
    have hadd : addDatapoint (seqRows c k 0 us) c k v =
        seqRows c k 0 (us ++ [v]) := by
      unfold addDatapoint getNewVersion
      rw [rowsFor_seqRows, maxAbsNat_seqRows, seqRows_append]
      rcases Nat.eq_zero_or_pos us.length with h | h
      · simp [h, seqRows]
      · have : ¬us.length = 0 := by omega
        simp only [this, if_false, Nat.zero_add]
        simp [seqRows]
    calc addMany (seqRows c k 0 us) c k (v :: vs)
        = addMany (addDatapoint (seqRows c k 0 us) c k v) c k vs := rfl
      _ = addMany (seqRows c k 0 (us ++ [v])) c k vs := by rw [hadd]
      _ = seqRows c k 0 ((us ++ [v]) ++ vs) := ih (us ++ [v])
      _ = seqRows c k 0 (us ++ (v :: vs)) := by
          rw [List.append_assoc]
          rfl

theorem revVersion_of_le {cut start : Nat} (h : start + 1 ≤ cut) :
    revVersion cut start = (start : Int) + 1 :=
  if_pos h

theorem revVersion_of_gt {cut start : Nat} (h : ¬start + 1 ≤ cut) :
    revVersion cut start = -((start : Int) + 1) :=
  if_neg h

theorem seqRows_eq_revRows (c : String) (k : κ) (cut start : Nat)
    (vs : List α) (h : start + vs.length ≤ cut) :
    seqRows c k start vs = revRows c k cut start vs := by
  induction vs generalizing start with
  | nil => rfl
  | cons v vs ih =>
    simp only [List.length_cons] at h
    simp only [seqRows, revRows]
    rw [revVersion_of_le (by omega), ih (start + 1) (by omega)]

theorem mem_revRows {c : String} {k : κ} {cut start : Nat} {vs : List α}
    {r : SRow κ α} (hr : r ∈ revRows c k cut start vs) :
    r.code = c ∧ r.key = k := by
  induction vs generalizing start with
  | nil => simp [revRows] at hr
  | cons v vs ih =>
    rcases List.mem_cons.mp hr with h | h
    · subst h; exact ⟨rfl, rfl⟩
    · exact ih h

theorem rowsFor_revRows (c : String) (k : κ) (cut start : Nat)
    (vs : List α) :
    rowsFor (revRows c k cut start vs) c k = revRows c k cut start vs := by
  unfold rowsFor
  apply List.filter_eq_self.mpr
  intro r hr
  have := mem_revRows hr
  simp [this.1, this.2]

theorem revRows_version_le {c : String} {k : κ} {cut start : Nat}
    {vs : List α} {r : SRow κ α} (hr : r ∈ revRows c k cut start vs) :
    r.version ≤ (cut : Int) := by
  induction vs generalizing start with
  | nil => simp [revRows] at hr
  | cons v vs ih =>
    rcases List.mem_cons.mp hr with h | h
    · subst h
      show revVersion cut start ≤ (cut : Int)
      unfold revVersion
      by_cases hle : start + 1 ≤ cut
      · rw [if_pos hle]; omega
      · rw [if_neg hle]; omega
    · exact ih h

theorem revRows_version_pos_ge {c : String} {k : κ} {cut start : Nat}
    {vs : List α} {r : SRow κ α} (hr : r ∈ revRows c k cut start vs)
    (hpos : 0 < r.version) : (start : Int) + 1 ≤ r.version := by
  induction vs generalizing start with
  | nil => simp [revRows] at hr
  | cons v vs ih =>
    rcases List.mem_cons.mp hr with h | h
    · subst h
      change (0 : Int) < revVersion cut start at hpos
      change (start : Int) + 1 ≤ revVersion cut start
      unfold revVersion at hpos ⊢
      by_cases hle : start + 1 ≤ cut
      · rw [if_pos hle]
      · rw [if_neg hle] at hpos
        omega
    · exact le_trans (by push_cast; omega) (ih h)

theorem revRows_exists_cut (c : String) (k : κ) (cut start : Nat)
    (vs : List α) (h1 : start < cut) (h2 : cut ≤ start + vs.length) :
    ∃ r ∈ revRows c k cut start vs, r.version = (cut : Int) := by
  induction vs generalizing start with
  | nil => simp at h2; omega
  | cons v vs ih =>
    by_cases hc : cut = start + 1
    · refine ⟨_, List.mem_cons_self _ _, ?_⟩
      show revVersion cut start = (cut : Int)
      rw [revVersion_of_le (by omega)]
      omega
    · have h1' : start + 1 < cut := by omega
      have h2' : cut ≤ start + 1 + vs.length := by
        simp only [List.length_cons] at h2; omega
      rcases ih (start + 1) h1' h2' with ⟨r, hr, hv⟩
      exact ⟨r, List.mem_cons_of_mem _ hr, hv⟩

theorem revRows_cut_value {c : String} {k : κ} {cut start : Nat}
    {vs : List α} {r : SRow κ α} (hr : r ∈ revRows c k cut start vs)
    (hv : r.version = (cut : Int)) (hc : 0 < cut) :
    vs.get? (cut - start - 1) = some r.value := by
  induction vs generalizing start with
  | nil => simp [revRows] at hr
  | cons v vs ih =>
    rcases List.mem_cons.mp hr with h | h
    · have hver : revVersion cut start = (cut : Int) := by rw [← hv, h]
      unfold revVersion at hver
      by_cases hle : start + 1 ≤ cut
      · rw [if_pos hle] at hver
        have hcs : cut = start + 1 := by omega
        rw [show cut - start - 1 = 0 from by omega]
        rw [h]
        rfl
      · rw [if_neg hle] at hver
        omega
    · have hge := revRows_version_pos_ge h (by omega)
      have hlt : start + 1 < cut := by omega
      have := ih h
      rw [show cut - start - 1 = (cut - (start + 1) - 1) + 1 from by omega]
      simpa using this

theorem maxRow_version_eq {l : List (SRow κ α)} {r0 : SRow κ α}
    (h0 : r0 ∈ l) (hle : ∀ r ∈ l, r.version ≤ r0.version) :
    (maxRow l).map (fun r => r.version) = some r0.version := by
  cases hm : maxRow l with
  | none =>
    rw [maxRow_eq_none.mp hm] at h0
    simp at h0
  | some m =>
    have h1 : m.version ≤ r0.version := hle m (maxRow_mem hm)
    have h2 : r0.version ≤ m.version := le_maxRow_version h0 hm
    simp [le_antisymm h1 h2]

theorem revRows_negate_cut (c : String) (k : κ) (cut start : Nat)
    (vs : List α) :
    (revRows c k cut start vs).map
      (fun r => if r.code = c ∧ r.key = k ∧ some r.version = some ((cut : Nat) : Int)
        then { r with version := -r.version } else r) =
      revRows c k (cut - 1) start vs := by
  induction vs generalizing start with
  | nil => rfl
  | cons v vs ih =>
    simp only [revRows, List.map_cons]
    rw [ih (start + 1)]
    congr 1
    dsimp only
    by_cases hle : start + 1 ≤ cut
    · by_cases heq : start + 1 = cut
      · have hv : revVersion cut start = (cut : Int) := by
          rw [revVersion_of_le hle]; omega
        rw [if_pos ⟨trivial, trivial, by rw [hv]⟩]
        have hneg : -revVersion cut start = revVersion (cut - 1) start := by
          rw [revVersion_of_le hle,
            revVersion_of_gt (show ¬start + 1 ≤ cut - 1 from by omega)]
        rw [hneg]
      · have hv : ¬(some (revVersion cut start) = some ((cut : Nat) : Int)) := by
          rw [revVersion_of_le hle]
          intro hcon
          injection hcon with hcon
          omega
        rw [if_neg (fun hcon => hv hcon.2.2)]
        have heq2 : revVersion cut start = revVersion (cut - 1) start := by
          rw [revVersion_of_le hle,
            revVersion_of_le (show start + 1 ≤ cut - 1 from by omega)]
        rw [heq2]
    · have hv : ¬(some (revVersion cut start) = some ((cut : Nat) : Int)) := by
        rw [revVersion_of_gt hle]
        intro hcon
        injection hcon with hcon
        omega
      rw [if_neg (fun hcon => hv hcon.2.2)]
      have heq2 : revVersion cut start = revVersion (cut - 1) start := by
        rw [revVersion_of_gt hle,
          revVersion_of_gt (show ¬start + 1 ≤ cut - 1 from by omega)]
      rw [heq2]

theorem revertNone_revRows (c : String) (k : κ) (cut : Nat) (vs : List α)
    (h1 : 1 ≤ cut) (h2 : cut ≤ vs.length) :
    revertNone (revRows c k cut 0 vs) c k = revRows c k (cut - 1) 0 vs := by
  have hmax : maxVersion (revRows c k cut 0 vs) c k = some ((cut : Nat) : Int) := by
    rcases revRows_exists_cut c k cut 0 vs (by omega) (by omega) with
      ⟨r0, h0, hv0⟩
    unfold maxVersion
    rw [rowsFor_revRows]
    have hm := maxRow_version_eq h0
      (fun r hr => hv0 ▸ revRows_version_le hr)
    rw [hv0] at hm
    exact hm
  unfold revertNone
  rw [hmax]
  exact revRows_negate_cut c k cut 0 vs

theorem revertNoneIter_seqRows (c : String) (k : κ) (vs : List α) (j : Nat)
    (hj : j ≤ vs.length) :
    revertNoneIter c k (seqRows c k 0 vs) j =
      revRows c k (vs.length - j) 0 vs := by
  induction j with
  | zero =>
    simpa [revertNoneIter] using
      seqRows_eq_revRows c k vs.length 0 vs (by omega)
  | succ j ih =>
    have hj' : j ≤ vs.length := by omega
    simp only [revertNoneIter, ih hj']
    rw [revertNone_revRows c k (vs.length - j) vs (by omega) (by omega),
      show vs.length - j - 1 = vs.length - (j + 1) from by omega]

theorem revertNone_preserves (s : List (SRow κ α)) (c : String) (k : κ) :
    ∀ r : SRow κ α,
      ((fun r' => if r'.code = c ∧ r'.key = k ∧ some r'.version = maxVersion s c k
          then { r' with version := -r'.version } else r') r).code = r.code ∧
      ((fun r' => if r'.code = c ∧ r'.key = k ∧ some r'.version = maxVersion s c k
          then { r' with version := -r'.version } else r') r).key = r.key := by
  intro r
  dsimp only
  constructor <;> (split <;> rfl)

theorem rowsFor_length_revertNone (s : List (SRow κ α)) (c : String) (k : κ) :
    (rowsFor (revertNone s c k) c k).length = (rowsFor s c k).length := by
  unfold revertNone
  rw [rowsFor_map (revertNone_preserves s c k)]
  exact List.length_map _ _

theorem addMany_nil_eq_seqRows (c : String) (k : κ) (vs : List α) :
    addMany [] c k vs = seqRows c k 0 vs := by
  have := addMany_seqRows c k [] vs
  simpa [seqRows] using this

/-- The signed version multiset of one key after a burst of adds followed
by iterated `revert(None)`: the version of the row at position `i` is
`i+1` while `i+1 ≤ cut` and `-(i+1)` above, so every revert negates
exactly the current maximum and `versions` keeps its length. -/
theorem revertNoneIter_addMany_shape (β : Type) (hβ : DecidableEq β)
    (c g : String) (vs : List β) (j : Nat) (hj : j ≤ vs.length) :
    revertNoneIter c g (addMany [] c g vs) j =
      revRows c g (vs.length - j) 0 vs ∧
    (∀ i : Nat,
      (keyVersions (revertNoneIter c g (addMany [] c g vs) i) c g).length =
        vs.length) := by
  rw [addMany_nil_eq_seqRows]
  refine ⟨revertNoneIter_seqRows c g vs j hj, ?_⟩
  intro i
  induction i with
  | zero =>
    simp only [revertNoneIter, keyVersions]
    rw [rowsFor_seqRows]
    rw [List.length_map, seqRows_length]
  | succ i ih =>
    simp only [revertNoneIter, keyVersions, List.length_map] at ih ⊢
    rw [rowsFor_length_revertNone]
    exact ih

/-- C2: with a first datapoint that carries a 25/75 confidence band, two
adds to the same group followed by one `revert(None)` make `current`
return the first datapoint altered by the row decoder (its 25/75 bounds
relocated under band 10, the slip of db.rs:888), not the first written
value; the `versions` list does keep length 2 before the revert, after it,
and after a further revert. -/
theorem c2_add_revert_returns_banded_first_value_altered :
    get_linear_datapoints
      (revertNoneIter "c" "g"
        (add_linear_datapoint
          (add_linear_datapoint [] "c"
            ⟨"g", Value.int 10,
              ⟨none, none, none, some (Value.int 9, Value.int 11)⟩, none⟩)
          "c" ⟨"g", Value.int 20, emptyConfMap, none⟩) 1) "c" =
      some [("g", Value.int 10,
        (⟨none, none, some (Value.int 9, Value.int 11), none⟩ : ConfMap))] ∧
    ((⟨none, none, some (Value.int 9, Value.int 11), none⟩ : ConfMap) ≠
      (⟨none, none, none, some (Value.int 9, Value.int 11)⟩ : ConfMap)) ∧
    (keyVersions
      (add_linear_datapoint
        (add_linear_datapoint [] "c"
          ⟨"g", Value.int 10,
            ⟨none, none, none, some (Value.int 9, Value.int 11)⟩, none⟩)
        "c" ⟨"g", Value.int 20, emptyConfMap, none⟩) "c" "g").length = 2 ∧
    (keyVersions
      (revertNoneIter "c" "g"
        (add_linear_datapoint
          (add_linear_datapoint [] "c"
            ⟨"g", Value.int 10,
              ⟨none, none, none, some (Value.int 9, Value.int 11)⟩, none⟩)
          "c" ⟨"g", Value.int 20, emptyConfMap, none⟩) 1) "c" "g").length = 2 ∧
    (keyVersions
      (revertNoneIter "c" "g"
        (add_linear_datapoint
          (add_linear_datapoint [] "c"
            ⟨"g", Value.int 10,
              ⟨none, none, none, some (Value.int 9, Value.int 11)⟩, none⟩)
          "c" ⟨"g", Value.int 20, emptyConfMap, none⟩) 2) "c" "g").length = 2 :=
  ⟨rfl, by decide, rfl, rfl, rfl⟩

theorem c3_revert_to_version_witness :
    revert_linear_datapoint
        [⟨"c", "g", 1, Value.int 10⟩, ⟨"c", "g", -2, Value.int 20⟩,
          ⟨"c", "g", 3, Value.int 30⟩] "c" "g" (some 2) =
      List.map (revertToRowSpec "c" "g" 2)
        [⟨"c", "g", 1, Value.int 10⟩, ⟨"c", "g", -2, Value.int 20⟩,
          ⟨"c", "g", 3, Value.int 30⟩] ∧
    keyVersion (revert_linear_datapoint
        [⟨"c", "g", 1, Value.int 10⟩, ⟨"c", "g", -2, Value.int 20⟩,
          ⟨"c", "g", 3, Value.int 30⟩] "c" "g" (some 2)) "c" "g" = some 2 :=
  c3_revert_to_version Value
    [⟨"c", "g", 1, Value.int 10⟩, ⟨"c", "g", -2, Value.int 20⟩,
      ⟨"c", "g", 3, Value.int 30⟩] "c" "g" 2 (by decide) (by decide)

/-! ### C5: reachable-state invariant -/

theorem rowsFor_addDatapoint_other {s : List (SRow κ α)} {c0 c : String}
    {k0 k : κ} {v : α} (h : ¬(c0 = c ∧ k0 = k)) :
    rowsFor (addDatapoint s c0 k0 v) c k = rowsFor s c k := by
  unfold addDatapoint
  rw [rowsFor_append]
  have : rowsFor [(⟨c0, k0, getNewVersion s c0 k0, v⟩ : SRow κ α)] c k = [] := by
    simp only [rowsFor, List.filter]
    rw [decide_eq_false]
    simp [h]
  rw [this, List.append_nil]

theorem rowsFor_addDatapoint_same (s : List (SRow κ α)) (c : String) (k : κ)
    (v : α) :
    rowsFor (addDatapoint s c k v) c k =
      rowsFor s c k ++ [⟨c, k, getNewVersion s c k, v⟩] := by
  unfold addDatapoint
  rw [rowsFor_append]
  congr 1
  simp [rowsFor]

theorem revertTo_abs_preserved (c : String) (k : κ) (v : Nat)
    (s : List (SRow κ α)) :
    (rowsFor (revertTo s c k v) c k).map (fun r => r.version.natAbs) =
      (rowsFor s c k).map (fun r => r.version.natAbs) := by
  rw [revertTo_eq_map_spec, rowsFor_map (revertToRowSpec_preserves c k v),
    List.map_map]
  apply List.map_congr_left
  intro r _
  simp only [Function.comp_apply]
  unfold revertToRowSpec
  by_cases hck : r.code = c ∧ r.key = k
  · by_cases habs : r.version.natAbs = v
    · simp [hck, habs]
    · by_cases hgt : (v : Int) < r.version <;> simp [hck, habs, hgt]
  · simp [hck]

theorem revertNone_abs_preserved (c : String) (k : κ)
    (s : List (SRow κ α)) (c' : String) (k' : κ) :
    (rowsFor (revertNone s c' k') c k).map (fun r => r.version.natAbs) =
      (rowsFor s c k).map (fun r => r.version.natAbs) := by
  unfold revertNone
  rw [rowsFor_map (revertNone_preserves s c' k'), List.map_map]
  apply List.map_congr_left
  intro r _
  simp only [Function.comp_apply]
  split <;> simp

theorem revertTo_abs_preserved_any (c' : String) (k' : κ) (v : Nat)
    (s : List (SRow κ α)) (c : String) (k : κ) :
    (rowsFor (revertTo s c' k' v) c k).map (fun r => r.version.natAbs) =
      (rowsFor s c k).map (fun r => r.version.natAbs) := by
  rw [revertTo_eq_map_spec, rowsFor_map (revertToRowSpec_preserves c' k' v),
    List.map_map]
  apply List.map_congr_left
  intro r _
  simp only [Function.comp_apply]
  unfold revertToRowSpec
  by_cases hck : r.code = c' ∧ r.key = k'
  · by_cases habs : r.version.natAbs = v
    · simp [hck, habs]
    · by_cases hgt : (v : Int) < r.version <;> simp [hck, habs, hgt]
  · simp [hck]

theorem runOps_nodup_abs (ops : List (StoreOp κ α)) (c : String) (k : κ) :
    ((rowsFor (runOps ops) c k).map (fun r => r.version.natAbs)).Nodup := by
  induction ops using List.reverseRecOn with
  | nil => simp [runOps, rowsFor]
  | append_singleton ops op ih =>
    have hstep : runOps (ops ++ [op]) = applyOp (runOps ops) op := by
      unfold runOps
      rw [List.foldl_append]
      rfl
    rw [hstep]
    cases op with
    | add c0 k0 v =>
      simp only [applyOp]
      by_cases hck : c0 = c ∧ k0 = k
      · rw [hck.1, hck.2]
        rw [rowsFor_addDatapoint_same, List.map_append]
        simp only [List.map_cons, List.map_nil]
        apply List.Nodup.append ih (List.nodup_singleton _)
        intro a ha hb
        simp only [List.mem_singleton] at hb
        rcases List.mem_map.mp ha with ⟨r, hr, hre⟩
        have h1 : r.version.natAbs ≤ maxAbsNat (rowsFor (runOps ops) c k) :=
          maxAbsNat_le hr
        have h2 : ((⟨c, k, getNewVersion (runOps ops) c k, v⟩ :
            SRow κ α)).version.natAbs =
            maxAbsNat (rowsFor (runOps ops) c k) + 1 := by
          show (getNewVersion (runOps ops) c k).natAbs = _
          unfold getNewVersion
          omega
        rw [hb] at hre
        rw [h2] at hre
        omega
      · rw [rowsFor_addDatapoint_other hck]
        exact ih
    | revert c0 k0 v? =>
      cases v? with
      | some v =>
        show ((rowsFor (revertTo (runOps ops) c0 k0 v) c k).map
          (fun r => r.version.natAbs)).Nodup
        rw [revertTo_abs_preserved_any]
        exact ih
      | none =>
        show ((rowsFor (revertNone (runOps ops) c0 k0) c k).map
          (fun r => r.version.natAbs)).Nodup
        rw [revertNone_abs_preserved]
        exact ih

theorem filter_maximal_length_le_one {l : List (SRow κ α)}
    (hnd : (l.map (fun r => r.version.natAbs)).Nodup) :
    (l.filter (fun r => 0 < r.version ∧ ∀ r' ∈ l, r'.version ≤ r.version)).length ≤ 1 := by
  have hsub : List.Sublist
      ((l.filter (fun r => 0 < r.version ∧
        ∀ r' ∈ l, r'.version ≤ r.version)).map (fun r => r.version.natAbs))
      (l.map (fun r => r.version.natAbs)) :=
    (List.filter_sublist l).map _
  have hnd' := hnd.sublist hsub
  cases hlf : l.filter (fun r => 0 < r.version ∧ ∀ r' ∈ l, r'.version ≤ r.version) with
  | nil => simp
  | cons a t =>
    cases t with
    | nil => simp
    | cons b t2 =>
      exfalso
      have ha : a ∈ l.filter
          (fun r => 0 < r.version ∧ ∀ r' ∈ l, r'.version ≤ r.version) := by
        rw [hlf]; exact List.mem_cons_self _ _
      have hb : b ∈ l.filter
          (fun r => 0 < r.version ∧ ∀ r' ∈ l, r'.version ≤ r.version) := by
        rw [hlf]; exact List.mem_cons_of_mem _ (List.mem_cons_self _ _)
      have hpa := List.of_mem_filter ha
      have hpb := List.of_mem_filter hb
      simp only [decide_eq_true_eq] at hpa hpb
      have hal := List.mem_of_mem_filter ha
      have hbl := List.mem_of_mem_filter hb
      have hev : a.version = b.version :=
        le_antisymm (hpb.2 a hal) (hpa.2 b hbl)
      rw [hlf] at hnd'
      simp only [List.map_cons, List.nodup_cons, List.mem_cons] at hnd'
      exact hnd'.1 (Or.inl (by rw [hev]))

/-- C5: from the empty store, after any sequence of `add`/`revert`
operations, at most one row per key is simultaneously positive and of
maximal version (stated generically over the payload), and every datapoint
the read paths return is the decoding of the row with the algebraically
maximal version of its key (stated on the linear and the XY read path over
the stored column payloads). -/
theorem c5_reachable_invariant (β : Type) (hβ : DecidableEq β)
    (ops : List (StoreOp String β)) (ops2 : List (StoreOp Int β))
    (opsL : List (StoreOp String LinearCols))
    (opsX : List (StoreOp Int XYCols))
    (c : String) (g : String) (t : Int) :
    (((rowsFor (runOps ops) c g).filter
      (fun r => 0 < r.version ∧
        ∀ r' ∈ rowsFor (runOps ops) c g, r'.version ≤ r.version)).length ≤ 1) ∧
    (∀ dps, get_linear_datapoints (runOps opsL) c = some dps →
      ∀ dp ∈ dps, ∃ m ∈ currentRows (runOps opsL) c,
        decodeLinearRow m = some dp ∧
        maxRow (rowsFor (runOps opsL) c m.key) = some m ∧
        ∀ r ∈ rowsFor (runOps opsL) c m.key, r.version ≤ m.version) ∧
    (((rowsFor (runOps ops2) c t).filter
      (fun r => 0 < r.version ∧
        ∀ r' ∈ rowsFor (runOps ops2) c t, r'.version ≤ r.version)).length ≤ 1) ∧
    (∀ dps, get_xy_datapoints (runOps opsX) c = some dps →
      ∀ dp ∈ dps, ∃ m ∈ currentRows (runOps opsX) c,
        decodeXYRow m = some dp ∧
        maxRow (rowsFor (runOps opsX) c m.key) = some m ∧
        ∀ r ∈ rowsFor (runOps opsX) c m.key, r.version ≤ m.version) := by
  refine ⟨filter_maximal_length_le_one (runOps_nodup_abs ops c g), ?_,
    filter_maximal_length_le_one (runOps_nodup_abs ops2 c t), ?_⟩
  · intro dps h dp hdp
    unfold get_linear_datapoints at h
    cases hda : decodeAll decodeLinearRow (currentRows (runOps opsL) c) with
    | none => rw [hda] at h; simp at h
    | some ys =>
      rw [hda] at h
      simp only [Option.map_some', Option.some.injEq] at h
      subst h
      exact decodeAll_current_sound decodeLinearRow hda dp
        ((List.perm_insertionSort _ ys).mem_iff.mp hdp)
  · intro dps h dp hdp
    unfold get_xy_datapoints at h
    cases hda : decodeAll decodeXYRow (currentRows (runOps opsX) c) with
    | none => rw [hda] at h; simp at h
    | some ys =>
      rw [hda] at h
      simp only [Option.map_some', Option.some.injEq] at h
      subst h
      exact decodeAll_current_sound decodeXYRow hda dp
        ((List.perm_insertionSort _ ys).mem_iff.mp hdp)

/-! ### C6: federation code-map construction -/

theorem foldl_insertCode_lookup (cs : List String) (idx : Nat)
    (m : String → Option Nat) (c : String) :
    (cs.foldl (fun m' code => insertCode m' idx code) m) c =
      if c ∈ cs then some idx else m c := by
  induction cs generalizing m with
  | nil => simp
  | cons x cs ih =>
    simp only [List.foldl_cons, ih]
    by_cases hx : c ∈ cs
    · rw [if_pos hx, if_pos (List.mem_cons_of_mem _ hx)]
    · rw [if_neg hx]
      by_cases hcx : c = x
      · rw [if_pos (by simp [hcx])]
        simp [insertCode, hcx]
      · rw [if_neg (by simp [hcx, hx])]
        simp [insertCode, hcx]

theorem invertedMapFrom_lookup_notmem (sets : List (List String)) (idx : Nat)
    (m : String → Option Nat) (c : String)
    (h : ∀ j, j < sets.length → c ∉ sets.getD j []) :
    invertedMapFrom idx sets m c = m c := by
  induction sets generalizing idx m with
  | nil => rfl
  | cons cs rest ih =>
    simp only [invertedMapFrom]
    rw [ih (idx + 1) _ (fun j hj => by
      have := h (j + 1) (by simpa using Nat.succ_lt_succ hj)
      simpa using this)]
    rw [foldl_insertCode_lookup]
    rw [if_neg (by have := h 0 (by simp); simpa using this)]

theorem invertedMapFrom_lookup_last (sets : List (List String)) (idx : Nat)
    (m : String → Option Nat) (c : String) (i : Nat)
    (hi : i < sets.length) (hmem : c ∈ sets.getD i [])
    (hlast : ∀ j, i < j → j < sets.length → c ∉ sets.getD j []) :
    invertedMapFrom idx sets m c = some (idx + i) := by
  induction sets generalizing idx m i with
  | nil => simp at hi
  | cons cs rest ih =>
    cases i with
    | zero =>
      simp only [invertedMapFrom]
      rw [invertedMapFrom_lookup_notmem rest (idx + 1) _ c (fun j hj => by
        have := hlast (j + 1) (by omega) (by simpa using Nat.succ_lt_succ hj)
        simpa using this)]
      rw [foldl_insertCode_lookup, if_pos (by simpa using hmem)]
      simp
    | succ i' =>
      simp only [invertedMapFrom]
      rw [ih (idx + 1) _ i' (by simpa using Nat.lt_of_succ_lt_succ hi)
        (by simpa using hmem)
        (fun j hj1 hj2 => by
          have := hlast (j + 1) (by omega) (by simpa using Nat.succ_lt_succ hj2)
          simpa using this)]
      congr 1
      omega

theorem buildCodeMapGo_ok (sets : List (List String)) (idx : Nat)
    (acc : List String)
    (h : ∀ p, p < sets.length → ∀ c ∈ sets.getD p [],
      ¬(c ∈ acc ∨ ∃ q, q < p ∧ c ∈ sets.getD q [])) :
    buildCodeMapGo idx acc sets = .ok () := by
  induction sets generalizing idx acc with
  | nil => rfl
  | cons cs rest ih =>
    simp only [buildCodeMapGo]
    rw [if_pos (fun c hc hacc =>
      h 0 (by simp) c (by simpa using hc) (Or.inl hacc))]
    apply ih (idx + 1) (acc ++ cs)
    intro p hp c hc hcon
    apply h (p + 1) (by simpa using Nat.succ_lt_succ hp) c (by simpa using hc)
    rcases hcon with hacc | ⟨q, hq, hqmem⟩
    · rcases List.mem_append.mp hacc with h1 | h1
      · exact Or.inl h1
      · exact Or.inr ⟨0, by omega, by simpa using h1⟩
    · exact Or.inr ⟨q + 1, by omega, by simpa using hqmem⟩

theorem buildCodeMapGo_error (sets : List (List String)) (idx : Nat)
    (acc : List String) (p : Nat) (hp : p < sets.length)
    (hviol : ∃ c ∈ sets.getD p [],
      c ∈ acc ∨ ∃ q, q < p ∧ c ∈ sets.getD q [])
    (hmin : ∀ p', p' < p → ∀ c ∈ sets.getD p' [],
      ¬(c ∈ acc ∨ ∃ q, q < p' ∧ c ∈ sets.getD q [])) :
    ∃ cs, buildCodeMapGo idx acc sets = .error (idx + p, cs) ∧
      ∀ c, c ∈ cs ↔
        ((c ∈ acc ∨ ∃ q, q < p ∧ c ∈ sets.getD q []) ∧ c ∈ sets.getD p []) := by
  induction sets generalizing idx acc p with
  | nil => simp at hp
  | cons cs0 rest ih =>
    cases p with
    | zero =>
      rcases hviol with ⟨c0, hc0, hc0v⟩
      have hc0acc : c0 ∈ acc := by
        rcases hc0v with h1 | ⟨q, hq, _⟩
        · exact h1
        · omega
      simp only [buildCodeMapGo]
      rw [if_neg (fun hall => hall c0 (by simpa using hc0) hc0acc)]
      refine ⟨acc.filter (fun a => a ∈ cs0), by simp, ?_⟩
      intro c
      simp only [List.mem_filter, decide_eq_true_eq, List.getD_cons_zero]
      constructor
      · rintro ⟨h1, h2⟩
        exact ⟨Or.inl h1, h2⟩
      · rintro ⟨h1 | ⟨q, hq, _⟩, h2⟩
        · exact ⟨h1, h2⟩
        · omega
    | succ p' =>
      have hclean : ∀ c ∈ cs0, c ∉ acc := by
        intro c hc hacc
        exact hmin 0 (by omega) c (by simpa using hc) (Or.inl hacc)
      simp only [buildCodeMapGo]
      rw [if_pos hclean]
      have hviol' : ∃ c ∈ rest.getD p' [],
          c ∈ acc ++ cs0 ∨ ∃ q, q < p' ∧ c ∈ rest.getD q [] := by
        rcases hviol with ⟨c, hc, hcv⟩
        refine ⟨c, by simpa using hc, ?_⟩
        rcases hcv with h1 | ⟨q, hq, hqm⟩
        · exact Or.inl (List.mem_append.mpr (Or.inl h1))
        · cases q with
          | zero => exact Or.inl (List.mem_append.mpr (Or.inr (by simpa using hqm)))
          | succ q' => exact Or.inr ⟨q', by omega, by simpa using hqm⟩
      have hmin' : ∀ q', q' < p' → ∀ c ∈ rest.getD q' [],
          ¬(c ∈ acc ++ cs0 ∨ ∃ q, q < q' ∧ c ∈ rest.getD q []) := by
        intro q' hq' c hc hcon
        apply hmin (q' + 1) (by omega) c (by simpa using hc)
        rcases hcon with h1 | ⟨q, hq, hqm⟩
        · rcases List.mem_append.mp h1 with h2 | h2
          · exact Or.inl h2
          · exact Or.inr ⟨0, by omega, by simpa using h2⟩
        · exact Or.inr ⟨q + 1, by omega, by simpa using hqm⟩
      rcases ih (idx + 1) (acc ++ cs0) p'
          (by simpa using Nat.lt_of_succ_lt_succ hp) hviol' hmin' with
        ⟨csx, heq, hchar⟩
      refine ⟨csx, ?_, ?_⟩
      · rw [heq]
        congr 2
        omega
      · intro c
        rw [hchar c]
        constructor
        · rintro ⟨h1 | ⟨q, hq, hqm⟩, h2⟩
          · rcases List.mem_append.mp h1 with ha | ha
            · exact ⟨Or.inl ha, by simpa using h2⟩
            · exact ⟨Or.inr ⟨0, by omega, by simpa using ha⟩, by simpa using h2⟩
          · exact ⟨Or.inr ⟨q + 1, by omega, by simpa using hqm⟩,
              by simpa using h2⟩
        · rintro ⟨h1 | ⟨q, hq, hqm⟩, h2⟩
          · exact ⟨Or.inl (List.mem_append.mpr (Or.inl h1)),
              by simpa using h2⟩
          · cases q with
            | zero =>
              exact ⟨Or.inl (List.mem_append.mpr (Or.inr (by simpa using hqm))),
                by simpa using h2⟩
            | succ q' =>
              exact ⟨Or.inr ⟨q', by omega, by simpa using hqm⟩,
                by simpa using h2⟩

/-- C6: federation construction fails on overlapping code sets with an
error naming the first offending store and the set of overlapping codes,
and succeeds on pairwise disjoint code sets with a code map sending every
code to the store that owns it. -/
theorem c6_code_map_disjointness (dbs : List (List String)) :
    (PairwiseDisjointCodes dbs →
      ∃ m, build_code_map dbs = .ok m ∧
        ∀ i, i < dbs.length → ∀ c ∈ dbs.getD i [], m c = some i) ∧
    (¬PairwiseDisjointCodes dbs →
      ∃ i cs, build_code_map dbs = .error (i, cs) ∧ i < dbs.length ∧
        (∃ c ∈ dbs.getD i [], ∃ j, j < i ∧ c ∈ dbs.getD j []) ∧
        (∀ i', i' < i → ∀ c ∈ dbs.getD i' [],
          ¬∃ j, j < i' ∧ c ∈ dbs.getD j []) ∧
        (∀ c, c ∈ cs ↔ c ∈ dbs.getD i [] ∧ ∃ j, j < i ∧ c ∈ dbs.getD j [])) := by
  constructor
  · intro hpd
    have hok : buildCodeMapGo 0 [] dbs = .ok () := by
      apply buildCodeMapGo_ok
      intro p hp c hc hcon
      rcases hcon with h1 | ⟨q, hq, hqm⟩
      · simp at h1
      · exact hpd p hp q hq c hqm hc
    refine ⟨invertedMap dbs, ?_, ?_⟩
    · unfold build_code_map
      rw [hok]
    · intro i hi c hc
      unfold invertedMap
      rw [invertedMapFrom_lookup_last dbs 0 _ c i hi hc
        (fun j hij hj => hpd j hj i hij c hc)]
      simp
  · intro hpd
    have hex : ∃ p, p < dbs.length ∧
        ∃ c, c ∈ dbs.getD p [] ∧ ∃ q, q < p ∧ c ∈ dbs.getD q [] := by
      unfold PairwiseDisjointCodes at hpd
      push_neg at hpd
      rcases hpd with ⟨j, hj, i, hij, c, hci, hcj⟩
      exact ⟨j, hj, c, hcj, i, hij, hci⟩
    classical
    let P : Nat → Prop := fun p => p < dbs.length ∧
      ∃ c, c ∈ dbs.getD p [] ∧ ∃ q, q < p ∧ c ∈ dbs.getD q []
    have hP : ∃ p, P p := hex
    have hfind := Nat.find_spec hP
    have hmin := fun p' (hp' : p' < Nat.find hP) => Nat.find_min hP hp'
    rcases buildCodeMapGo_error dbs 0 [] (Nat.find hP) hfind.1
        (by
          rcases hfind.2 with ⟨c, hc, hq⟩
          exact ⟨c, hc, Or.inr hq⟩)
        (by
          intro p' hp' c hc hcon
          rcases hcon with h1 | ⟨q, hq, hqm⟩
          · simp at h1
          · by_cases hplt : p' < dbs.length
            · exact hmin p' hp' ⟨hplt, c, hc, q, hq, hqm⟩
            · have : dbs.getD p' [] = [] := by
                apply List.getD_eq_default
                omega
              rw [this] at hc
              simp at hc) with ⟨cs, heq, hchar⟩
    refine ⟨Nat.find hP, cs, ?_, hfind.1, ?_, ?_, ?_⟩
    · unfold build_code_map
      rw [heq]
      simp
    · rcases hfind.2 with ⟨c, hc, q, hq, hqm⟩
      exact ⟨c, hc, q, hq, hqm⟩
    · intro i' hi' c hc ⟨j, hj, hjm⟩
      by_cases hplt : i' < dbs.length
      · exact hmin i' hi' ⟨hplt, c, hc, j, hj, hjm⟩
      · have : dbs.getD i' [] = [] := by
          apply List.getD_eq_default
          omega
        rw [this] at hc
        simp at hc
    · intro c
      rw [hchar c]
      constructor
      · rintro ⟨h1 | h1, h2⟩
        · simp at h1
        · exact ⟨h2, h1⟩
      · rintro ⟨h1, h2⟩
        exact ⟨Or.inr h2, h1⟩

theorem c6_code_map_disjointness_witness :
    (∃ m, build_code_map [["a"], ["b"]] = .ok m ∧
      ∀ i, i < 2 → ∀ c ∈ [["a"], ["b"]].getD i [], m c = some i) ∧
    (∃ i cs, build_code_map [["a"], ["a", "b"]] = .error (i, cs) ∧
      i < 2 ∧
      (∃ c ∈ [["a"], ["a", "b"]].getD i [], ∃ j, j < i ∧
        c ∈ [["a"], ["a", "b"]].getD j []) ∧
      (∀ i', i' < i → ∀ c ∈ [["a"], ["a", "b"]].getD i' [],
        ¬∃ j, j < i' ∧ c ∈ [["a"], ["a", "b"]].getD j []) ∧
      (∀ c, c ∈ cs ↔ c ∈ [["a"], ["a", "b"]].getD i [] ∧
        ∃ j, j < i ∧ c ∈ [["a"], ["a", "b"]].getD j [])) := by
  constructor
  · have h := (c6_code_map_disjointness [["a"], ["b"]]).1 (by decide)
    simpa using h
  · exact (c6_code_map_disjointness [["a"], ["a", "b"]]).2 (by decide)

/-! ### C7: nearest-rank percentile -/

/-- C7 counterexample: on the sorted sample `[0..99]` with percentile 7
the `f64` evaluation of `100 * (7/100)` yields `7.0000000000000009…`
(both roundings are upward), so the program computes index
`ceil = 8` and `integer_percentile` returns the element `8`, while the
claimed exact index `ceil(100*7/100) = 7` (clamped) selects the
element `7`. -/
theorem c7_percentile_exact_ceiling_counterexample :
    integer_percentile ((List.range 100).map Int.ofNat) 7 = 8 ∧
    f64Index 100 7 = 8 ∧
    ((List.range 100).map Int.ofNat).getD
      (min ((((List.range 100).map Int.ofNat).length * 7 + 99) / 100)
        (((List.range 100).map Int.ofNat).length - 1)) 0 = 7 ∧
    (8 : Int) ≠ 7 := by
  decide

/-- C7 (amended): for a non-empty sorted sample, `percentile(s,p)` selects
the element at the index obtained by evaluating `ceil(n * p/100)` in
binary64 arithmetic (`f64Index`), clamped to the last index — an index
that can exceed the exact ceiling `ceil(n*p/100)`, as at `n = 100`,
`p = 7`; on the sorted sample `[0..99]` the percentiles the system
requests still evaluate as claimed (`percentile(s,50) = 50`,
`percentile(s,1) = 1`, `percentile(s,99) = 99`), the `f64` index agreeing
with the exact ceiling there. -/
theorem c7_percentile_f64_index (s : List Int) (fs : List F64) (p : Nat)
    (hs : s ≠ []) (hfs : fs ≠ []) :
    integer_percentile s p =
      s.getD (min (f64Index s.length p) (s.length - 1)) 0 ∧
    float_percentile fs p =
      fs.getD (min (f64Index fs.length p) (fs.length - 1)) ⟨0⟩ ∧
    integer_percentile ((List.range 100).map Int.ofNat) 50 = 50 ∧
    integer_percentile ((List.range 100).map Int.ofNat) 1 = 1 ∧
    integer_percentile ((List.range 100).map Int.ofNat) 99 = 99 ∧
    f64Index 100 50 = (100 * 50 + 99) / 100 ∧
    f64Index 100 1 = (100 * 1 + 99) / 100 ∧
    f64Index 100 99 = (100 * 99 + 99) / 100 := by
  have hlen : 0 < s.length := List.length_pos.mpr hs
  have hflen : 0 < fs.length := List.length_pos.mpr hfs
  refine ⟨?_, ?_, by decide, by decide, by decide, by decide, by decide,
    by decide⟩
  · unfold integer_percentile
    by_cases h : f64Index s.length p < s.length
    · rw [if_pos h, min_eq_left (by omega)]
    · rw [if_neg h, min_eq_right (by omega)]
  · unfold float_percentile
    by_cases h : f64Index fs.length p < fs.length
    · rw [if_pos h, min_eq_left (by omega)]
    · rw [if_neg h, min_eq_right (by omega)]

theorem c7_percentile_f64_index_witness :
    integer_percentile [10, 20, 30, 40] 50 =
      [(10 : Int), 20, 30, 40].getD
        (min (f64Index [(10 : Int), 20, 30, 40].length 50)
          ([(10 : Int), 20, 30, 40].length - 1)) 0 ∧
    float_percentile [⟨7⟩] 50 =
      [(⟨7⟩ : F64)].getD
        (min (f64Index [(⟨7⟩ : F64)].length 50)
          ([(⟨7⟩ : F64)].length - 1)) ⟨0⟩ ∧
    integer_percentile ((List.range 100).map Int.ofNat) 50 = 50 ∧
    integer_percentile ((List.range 100).map Int.ofNat) 1 = 1 ∧
    integer_percentile ((List.range 100).map Int.ofNat) 99 = 99 ∧
    f64Index 100 50 = (100 * 50 + 99) / 100 ∧
    f64Index 100 1 = (100 * 1 + 99) / 100 ∧
    f64Index 100 99 = (100 * 99 + 99) / 100 :=
  c7_percentile_f64_index [10, 20, 30, 40] [⟨7⟩] 50
    (by decide) (by decide)

/-! ### C8: status aggregation -/

/-- C8: on a store with one XY code `"X"` holding two tags (tag 0 with
versions 1 and 2, tag 1 with version 1) the implemented `status` reports
`n_active_datapoints = 1` — the xy active-count query has no `group by`,
so it contributes at most one active key per store — while the claimed
per-key count (`statusSpec`) reports 2. -/
theorem c8_status_xy_active_count_diverges :
    status ["X"] [⟨"X", 0, 1, ()⟩, ⟨"X", 0, 2, ()⟩, ⟨"X", 1, 1, ()⟩] [] =
      [⟨"X", 3, 1⟩] ∧
    statusSpec ["X"] [⟨"X", 0, 1, ()⟩, ⟨"X", 0, 2, ()⟩, ⟨"X", 1, 1, ()⟩] [] =
      [⟨"X", 3, 2⟩] := by
  decide

/-! ### C9: virtual linear experiment "v - min" -/

/-- C9: a virtual linear experiment with `v_operation = "v - min"` over a
source whose current points are `get → 12` and `put → 42` yields
`get → 0` and `put → 30`: the global minimum 12 is computed over the
source's central values and subtracted from each point. -/
theorem c9_virtual_v_minus_min :
    get_virtual_linear_experiment_set
      [⟨"get", 12, [], some 0⟩, ⟨"put", 42, [], some 1⟩]
      (some (.sub .vVar .minVar)) none =
      some [⟨"get", 0, [], some 0⟩, ⟨"put", 30, [], some 1⟩] := by
  decide

/-! ### C10: the 25/75 band decodes under band 10 -/

theorem insertConf_c25_of_ne (m : ConfMap) (b : Confidence)
    (p : Value × Value) (hb : b ≠ .twentyfive) :
    (insertConf m b p).c25 = m.c25 := by
  cases b with
  | one => rfl
  | five => rfl
  | ten => rfl
  | twentyfive => exact absurd rfl hb

theorem applyConfBlock_c25_of_ne (central : Value) (m : ConfMap)
    (b : Confidence) (cc : ConfCols) (hb : b ≠ .twentyfive) :
    (applyConfBlock central m b cc).c25 = m.c25 := by
  unfold applyConfBlock
  cases create_confidence_arg cc with
  | none => rfl
  | some e =>
    unfold addConfidence
    cases central with
    | int n =>
      cases e with
      | inl p => exact insertConf_c25_of_ne m b _ hb
      | inr p => rfl
    | float f =>
      cases e with
      | inl p => rfl
      | inr p => exact insertConf_c25_of_ne m b _ hb

/-- C10: whenever a row decodes, the resulting datapoint has no entry
under the 25 band, and populated (well-typed) 25/75 columns land under
the 10 band instead — on the linear decoder and on both axes of the XY
decoder. -/
theorem c10_band25_decoded_under_band10
    (group : String) (vi : Option Int) (vf : Option F64)
    (b1 b5 b10 b25 : ConfCols)
    (xi : Option Int) (xf : Option F64) (yi : Option Int) (yf : Option F64)
    (xb1 xb5 xb10 xb25 yb1 yb5 yb10 yb25 : ConfCols) (tag : Option Int) :
    (∀ dp, linear_datapoint_from_row group vi vf b1 b5 b10 b25 = some dp →
      dp.2.2.c25 = none ∧
      ∀ lo hi n, b25.lo_int = some lo → b25.hi_int = some hi →
        vi = some n → dp.2.2.c10 = some (.int lo, .int hi)) ∧
    (∀ dp, xy_datapoint_from_row xi xf yi yf
        xb1 xb5 xb10 xb25 yb1 yb5 yb10 yb25 tag = some dp →
      dp.2.1.c25 = none ∧ dp.2.2.2.1.c25 = none ∧
      (∀ lo hi n, xb25.lo_int = some lo → xb25.hi_int = some hi →
        xi = some n → dp.2.1.c10 = some (.int lo, .int hi)) ∧
      (∀ lo hi n, yb25.lo_int = some lo → yb25.hi_int = some hi →
        yi = some n → dp.2.2.2.1.c10 = some (.int lo, .int hi))) := by
  constructor
  · intro dp hdp
    unfold linear_datapoint_from_row at hdp
    cases hv : valueFromCols vi vf with
    | none => rw [hv] at hdp; simp at hdp
    | some v =>
      rw [hv] at hdp
      simp only [Option.map_some', Option.some.injEq] at hdp
      subst hdp
      constructor
      · show (applyConfBlock v _ .ten b25).c25 = none
        rw [applyConfBlock_c25_of_ne _ _ _ _ (by simp),
          applyConfBlock_c25_of_ne _ _ _ _ (by simp),
          applyConfBlock_c25_of_ne _ _ _ _ (by simp),
          applyConfBlock_c25_of_ne _ _ _ _ (by simp)]
        rfl
      · intro lo hi n hlo hhi hn
        rw [hn] at hv
        unfold valueFromCols at hv
        simp only [Option.some.injEq] at hv
        subst hv
        show (applyConfBlock (.int n) _ .ten b25).c10 = _
        unfold applyConfBlock
        rw [show create_confidence_arg b25 = some (Sum.inl (lo, hi)) from by
          unfold create_confidence_arg
          rw [hlo, hhi]]
        rfl
  · intro dp hdp
    unfold xy_datapoint_from_row at hdp
    cases hx : valueFromCols xi xf with
    | none => rw [hx] at hdp; simp at hdp
    | some x =>
      cases hy : valueFromCols yi yf with
      | none => rw [hx, hy] at hdp; simp at hdp
      | some y =>
        rw [hx, hy] at hdp
        simp only [Option.some.injEq] at hdp
        subst hdp
        refine ⟨?_, ?_, ?_, ?_⟩
        · show (applyConfBlock x _ .ten xb25).c25 = none
          rw [applyConfBlock_c25_of_ne _ _ _ _ (by simp),
            applyConfBlock_c25_of_ne _ _ _ _ (by simp),
            applyConfBlock_c25_of_ne _ _ _ _ (by simp),
            applyConfBlock_c25_of_ne _ _ _ _ (by simp)]
          rfl
        · show (applyConfBlock y _ .ten yb25).c25 = none
          rw [applyConfBlock_c25_of_ne _ _ _ _ (by simp),
            applyConfBlock_c25_of_ne _ _ _ _ (by simp),
            applyConfBlock_c25_of_ne _ _ _ _ (by simp),
            applyConfBlock_c25_of_ne _ _ _ _ (by simp)]
          rfl
        · intro lo hi n hlo hhi hn
          rw [hn] at hx
          unfold valueFromCols at hx
          simp only [Option.some.injEq] at hx
          subst hx
          show (applyConfBlock (.int n) _ .ten xb25).c10 = _
          unfold applyConfBlock
          rw [show create_confidence_arg xb25 = some (Sum.inl (lo, hi)) from by
            unfold create_confidence_arg
            rw [hlo, hhi]]
          rfl
        · intro lo hi n hlo hhi hn
          rw [hn] at hy
          unfold valueFromCols at hy
          simp only [Option.some.injEq] at hy
          subst hy
          show (applyConfBlock (.int n) _ .ten yb25).c10 = _
          unfold applyConfBlock
          rw [show create_confidence_arg yb25 = some (Sum.inl (lo, hi)) from by
            unfold create_confidence_arg
            rw [hlo, hhi]]
          rfl

theorem c10_band25_decoded_under_band10_witness :
    ((("g", Value.int 50, (⟨some (Value.int 1, Value.int 99),
        some (Value.int 5, Value.int 95), some (Value.int 25, Value.int 75),
        none⟩ : ConfMap)) : String × Value × ConfMap).2.2.c25 = none ∧
      (("g", Value.int 50, (⟨some (Value.int 1, Value.int 99),
        some (Value.int 5, Value.int 95), some (Value.int 25, Value.int 75),
        none⟩ : ConfMap)) : String × Value × ConfMap).2.2.c10 =
        some (Value.int 25, Value.int 75)) := by
  have h := (c10_band25_decoded_under_band10 "g" (some 50) none
    ⟨some 1, some 99, none, none⟩ ⟨some 5, some 95, none, none⟩
    ⟨some 10, some 90, none, none⟩ ⟨some 25, some 75, none, none⟩
    none none none none
    ⟨none, none, none, none⟩ ⟨none, none, none, none⟩
    ⟨none, none, none, none⟩ ⟨none, none, none, none⟩
    ⟨none, none, none, none⟩ ⟨none, none, none, none⟩
    ⟨none, none, none, none⟩ ⟨none, none, none, none⟩ none).1
    ("g", Value.int 50, ⟨some (Value.int 1, Value.int 99),
      some (Value.int 5, Value.int 95), some (Value.int 25, Value.int 75),
      none⟩) (by decide)
  exact ⟨h.1, h.2 25 75 50 rfl rfl rfl⟩

end Bencher
